import Mathlib

/-!
FragmentIndentation: extraction and restoration of template fragments.

A shallow embedding of `source/script.js` (class `FragmentIndentation`): the static
methods `replaceIndentationWithFragmentKey`, `replaceOriginalFragment`, `generateKey`
and `replaceBetweenIndexes`, together with the built-in string operations they call
(`lastIndexOf`, `substring`, `slice`, `replace`).

* A JavaScript string is a list of code units; every operation below only compares
  units for equality and counts them.
* The static member `fragmentArray` is explicit state (`State.fragmentArray`).
* `Math.random().toString()` is an explicit supply of renderings (`State.random`).
* The `while` loop takes fuel; `none` means that the call has not returned within the
  fuel and the supply given.
-/

namespace FragmentIndentation

/-- A JavaScript string, as the list of its code units. -/
abbrev JSString := List Char

/-! ## Built-in string operations -/

/-- The index of the last occurrence of `searchString` in `string`, if there is one. -/
def lastOccurrence (searchString : JSString) : JSString → Option Nat
  | [] => if searchString = [] then some 0 else none
  | c :: s =>
    match lastOccurrence searchString s with
    | some i => some (i + 1)
    | none => if searchString.isPrefixOf (c :: s) then some 0 else none

/-- `String.prototype.lastIndexOf(searchString)`: the index of the last occurrence, or `-1`. -/
def lastIndexOf (string searchString : JSString) : Int :=
  match lastOccurrence searchString string with
  | some i => (i : Int)
  | none => -1

/-- An integer argument of `substring`, clamped to `0 .. len`. -/
def clampIndex (len : Nat) (i : Int) : Nat := min i.toNat len

/-- `String.prototype.substring(indexStart, indexEnd)`: both arguments are clamped to the
string and swapped when `indexStart > indexEnd`. -/
def substring (string : JSString) (indexStart indexEnd : Int) : JSString :=
  let a := clampIndex string.length indexStart
  let b := clampIndex string.length indexEnd
  (string.drop (min a b)).take (max a b - min a b)

/-- `String.prototype.substring(indexStart)`: up to the end of the string. -/
def substringFrom (string : JSString) (indexStart : Int) : JSString :=
  string.drop (clampIndex string.length indexStart)

/-- `String.prototype.slice(start, end)` for non-negative arguments. -/
def slice (string : JSString) (start stop : Nat) : JSString :=
  let a := min start string.length
  let b := min stop string.length
  (string.drop a).take (b - a)

/-- The text before and the text after the first occurrence of `searchValue`. -/
def splitFirst (searchValue : JSString) : JSString → Option (JSString × JSString)
  | [] => if searchValue = [] then some ([], []) else none
  | c :: s =>
    if searchValue.isPrefixOf (c :: s) then some ([], (c :: s).drop searchValue.length)
    else
      match splitFirst searchValue s with
      | some (before, after) => some (c :: before, after)
      | none => none

/-- The abstract operation GetSubstitution of ECMAScript for a string pattern (no captures):
in the replacement text `$$` stands for `$`, `$&` for the matched text, a dollar followed by
a grave accent for the text before the match and a dollar followed by an apostrophe for the
text after it; every other unit, a lone `$` included, stands for itself. -/
def getSubstitution (matched before after : JSString) : JSString → JSString
  | [] => []
  | [c] => [c]
  | c :: d :: rest =>
    if c = '$' then
      if d = '$' then '$' :: getSubstitution matched before after rest
      else if d = '&' then matched ++ getSubstitution matched before after rest
      else if d = Char.ofNat 96 then before ++ getSubstitution matched before after rest
      else if d = Char.ofNat 39 then after ++ getSubstitution matched before after rest
      else '$' :: getSubstitution matched before after (d :: rest)
    else c :: getSubstitution matched before after (d :: rest)

/-- `String.prototype.replace(searchValue, replaceValue)` with both arguments strings: the
first occurrence of `searchValue` is replaced by the expansion of `replaceValue`. -/
def replace (string searchValue replaceValue : JSString) : JSString :=
  match splitFirst searchValue string with
  | none => string
  | some (before, after) =>
    before ++ getSubstitution searchValue before after replaceValue ++ after

/-! ## The fragment table -/

/-- The own enumerable properties of the array `fragmentArray`, in the order in which
`for ... in` visits them. Every property name the class writes starts with `FRAGMENT`, so
none is an array index and the order is the order of creation. -/
abbrev Table := List (JSString × JSString)

/-- The property read `table[key]`; `none` stands for `undefined`. -/
def Table.get : Table → JSString → Option JSString
  | [], _ => none
  | (k, v) :: t, key => if k = key then some v else Table.get t key

/-- The property write `table[key] = value`: an existing property keeps its place and takes
the new value, a new property is created last. -/
def Table.set : Table → JSString → JSString → Table
  | [], key, value => [(key, value)]
  | (k, v) :: t, key, value =>
    if k = key then (k, value) :: t else (k, v) :: Table.set t key value

/-! ## The class `FragmentIndentation` -/

/-- The static member `indentation.openning.symbol`. -/
def openningSymbol : JSString := ['{', '%']

/-- The static member `indentation.closing.symbol`. -/
def closingSymbol : JSString := ['%', '}']

/-- The static member `indentation.closing.length`. -/
def closingLength : Int := 2

/-- The static member `fragmentKey`. -/
def fragmentKey : JSString := ['F', 'R', 'A', 'G', 'M', 'E', 'N', 'T']

/-- The state the static methods work on. -/
structure State where
  /-- The variable `string` of the method running. -/
  string : JSString
  /-- The static member `self.fragmentArray`. -/
  fragmentArray : Table
  /-- The values `Math.random().toString()` still to come, in order. -/
  random : List JSString
deriving DecidableEq

/-- The constructor of the class returned by `TransformToFragmentKeys`:
`self.fragmentArray = Array()`. -/
def TransformToFragmentKeys_constructor (_fragmentArray : Table) : Table := []

/-- The static method `replaceOriginalFragment`, on the table `self.fragmentArray`. -/
def replaceOriginalFragment (fragmentArray : Table) (string : JSString) : JSString :=
  fragmentArray.foldl (fun string entry => replace string entry.1 entry.2) string

/-- The static method `generateKey`: draw `Math.random().toString().slice(2, length + 2)`
until the value is no property of `notInArray`. It gives the key and the supply left. -/
def generateKey (length : Nat) (notInArray : Table) : List JSString → Option (JSString × List JSString)
  | [] => none
  | r :: random =>
    let key := slice r 2 (length + 2)
    if (notInArray.get key).isSome then generateKey length notInArray random
    else some (key, random)

/-- The static method `replaceBetweenIndexes`. -/
def replaceBetweenIndexes (string : JSString) (startIndex endIndex : Int)
    (insertedString : JSString) : JSString :=
  substring string 0 startIndex ++ insertedString ++ substringFrom string endIndex

/-- One pass through the body of the `while` loop of `replaceIndentationWithFragmentKey`;
`fragmentArray` is the local variable of that name, `st.fragmentArray` the static member. -/
def loopBody (fragmentArray : Table) (st : State) : Option State :=
  let startIndex := lastIndexOf st.string openningSymbol
  let endIndex := lastIndexOf st.string closingSymbol + closingLength
  match generateKey 7 fragmentArray st.random with
  | none => none
  | some (generatedKey, random) =>
    let insertedString := fragmentKey ++ generatedKey
    some
      { string := replaceBetweenIndexes st.string startIndex endIndex insertedString
        fragmentArray := st.fragmentArray.set insertedString (substring st.string startIndex endIndex)
        random := random }

/-- The `while` loop of `replaceIndentationWithFragmentKey`, with fuel. -/
def whileLoop (fragmentArray : Table) : Nat → State → Option State
  | 0, _ => none
  | fuel + 1, st =>
    if lastIndexOf st.string openningSymbol ≥ 0 then
      match loopBody fragmentArray st with
      | none => none
      | some st' => whileLoop fragmentArray fuel st'
    else some st

/-- The static method `replaceIndentationWithFragmentKey`: the local `fragmentArray` is
created empty and nothing is written to it; the loop writes to the static member. -/
def replaceIndentationWithFragmentKey (fuel : Nat) (st : State) : Option State :=
  let fragmentArray : Table := []
  whileLoop fragmentArray fuel st

/-! ## Vocabulary of the statements -/

/-- The code units of a Lean string literal. -/
def str (s : String) : JSString := s.toList

/-- The units that occur in `Number.prototype.toString` of a number in `[0, 1)`:
decimal digits, the decimal point, and `e` and `-` of the exponent form. -/
def renderingUnits : List Char :=
  ['0', '1', '2', '3', '4', '5', '6', '7', '8', '9', '.', 'e', '-']

/-- The value `r` is written with the units of a number rendering only. -/
def isRendering (r : JSString) : Prop := ∀ c ∈ r, c ∈ renderingUnits

instance (r : JSString) : Decidable (isRendering r) := by
  unfold isRendering; infer_instance

/-- The key `generateKey(7, [])` cuts out of the rendering `r`. -/
def keyOf (r : JSString) : JSString := slice r 2 (7 + 2)

/-- The placeholder inserted for the rendering `r`: `fragmentKey + generatedKey`. -/
def placeholder (r : JSString) : JSString := fragmentKey ++ keyOf r

/-- The value of `endIndex` as a natural number: two past the last closing symbol, and `1`
when there is none. -/
def endIndexOf (string : JSString) : Nat :=
  match lastOccurrence closingSymbol string with
  | some i => i + 2
  | none => 1

/-- The number of places at which `searchString` occurs in a string. -/
def occurrences (searchString : JSString) : JSString → Nat
  | [] => if searchString = [] then 1 else 0
  | c :: s => (if searchString.isPrefixOf (c :: s) then 1 else 0) + occurrences searchString s

/-- The token `tok` stands in the text `s` to the right of every closing symbol, and not at
the very start of a text that has an opening symbol. -/
def Survives (s tok : JSString) : Prop :=
  ∃ X Y, s = X ++ tok ++ Y ∧ (∀ c, closingSymbol <+: s.drop c → c + 2 ≤ X.length) ∧
    (∀ o, openningSymbol <+: s.drop o → 1 ≤ X.length)

/-- The fragment with the body `body`, both markers included. -/
def fragmentOf (body : JSString) : JSString := openningSymbol ++ body ++ closingSymbol

/-- The text `T0 F1 T1 ... Fn Tn`, given by the pairs `(T0, body of F1)`, ...,
`(T(n-1), body of Fn)` and the last text `Tn`. -/
def textOf : List (JSString × JSString) → JSString → JSString
  | [], last => last
  | p :: pieces, last => p.1 ++ fragmentOf p.2 ++ textOf pieces last

/-- The text `T0 P1 T1 ... Pn Tn` in which the fragment `Fi` has given way to `'FRAGMENT'`
followed by the `i`-th key of `keys`. -/
def replacedOf : List (JSString × JSString) → List JSString → JSString → JSString
  | p :: pieces, k :: keys, last => p.1 ++ (fragmentKey ++ k) ++ replacedOf pieces keys last
  | _, _, last => last

/-- The indices at which the opening delimiters of the fragments start in `textOf pieces last`,
counted from `offset`. -/
def openDelimiters : List (JSString × JSString) → Nat → List Nat
  | [], _ => []
  | p :: pieces, offset =>
    (offset + p.1.length) ::
      openDelimiters pieces (offset + p.1.length + (fragmentOf p.2).length)

/-- The indices at which the closing delimiters of the fragments start in
`textOf pieces last`, counted from `offset`. -/
def closeDelimiters : List (JSString × JSString) → Nat → List Nat
  | [], _ => []
  | p :: pieces, offset =>
    (offset + p.1.length + 2 + p.2.length) ::
      closeDelimiters pieces (offset + p.1.length + (fragmentOf p.2).length)

/-- The writes `table[Pi] = Fi` of an extraction, in the order of the loop: the `j`-th
rendering of the random source goes with the `j`-th fragment from the right. -/
def recordsOf (pieces : List (JSString × JSString)) (random : List JSString) :
    List (JSString × JSString) :=
  List.zip ((random.take pieces.length).map (fun r => fragmentKey ++ keyOf r))
    (pieces.reverse.map (fun p => fragmentOf p.2))

/-- The index `c` of the text `s` lies to the right of every marker of `s`. -/
def RightOfMarkers (s : JSString) (c : Nat) : Prop :=
  (∀ i, closingSymbol <+: s.drop i → i + 2 ≤ c) ∧
    (∀ o, openningSymbol <+: s.drop o → o + 2 ≤ c)

/-- The token `tok` is `'FRAGMENT'` followed by a key of `len` units of a rendering. -/
def IsToken (len : Nat) (tok : JSString) : Prop :=
  ∃ k, tok = fragmentKey ++ k ∧ k.length = len ∧ ∀ u ∈ k, u ∈ renderingUnits

/-- The state of the loop on a text that had no `FRAGMENT` in it at the start, with keys of
one length that are pairwise distinct: `FRAGMENT` occurs only at the start of a token of the
table, to the right of every marker, and every token of the table occurs once and differs
from the tokens still to come. -/
def OnceInv (len : Nat) (s : JSString) (table : Table) (random : List JSString) : Prop :=
  (∀ c, fragmentKey <+: s.drop c → RightOfMarkers s c ∧ ∃ e ∈ table, e.1 <+: s.drop c) ∧
    (∀ e ∈ table, IsToken len e.1 ∧ e.1 ∉ random.map placeholder ∧
      ∃ c, e.1 <+: s.drop c ∧ ∀ c', e.1 <+: s.drop c' → c' = c)

/-! ## The transform streams -/

/-- The member `contents` of a vinyl file: a Buffer, a Stream, or `null`. -/
inductive Contents where
  | buffer (text : JSString)
  | stream
  | null
deriving DecidableEq

/-- A file object of the stream (a vinyl file), as far as `_transform` looks at it. -/
structure File where
  /-- The member `file.contents`. -/
  contents : Contents
deriving DecidableEq

/-- The method `file.isStream()` of a vinyl file: whether the contents are a Stream. -/
def File.isStream (file : File) : Bool :=
  match file.contents with
  | Contents.stream => true
  | _ => false

/-- The call `file.contents.toString()`: the text of a Buffer, `[object Object]` for a Stream
object, and `none` for `null`, on which the call throws a TypeError. -/
def Contents.toString : Contents → Option JSString
  | Contents.buffer text => some text
  | Contents.stream => some (str "[object Object]")
  | Contents.null => none

/-- The arguments that `_transform` passes to `callback`: `callback(new Error(message))` or
`callback(null, file)`. -/
inductive CallbackArguments where
  | error (message : JSString)
  | data (file : File)
deriving DecidableEq

/-- How a call of `_transform` ends: with a call of `callback`, or with the TypeError of
`file.contents.toString()` on `null`, which rejects the promise of the async method before
`callback` is called. -/
inductive Ending where
  | called (arguments : CallbackArguments)
  | typeError
deriving DecidableEq

/-- What a call of `_transform` leaves behind: how it ended, the file object, the static
member `fragmentArray` and the random values still to come. -/
structure Transformed where
  /-- The way the call ended. -/
  ending : Ending
  /-- The file object after the call. -/
  file : File
  /-- The static member `self.fragmentArray` after the call. -/
  fragmentArray : Table
  /-- The values `Math.random().toString()` still to come. -/
  random : List JSString
deriving DecidableEq

/-- The message of the error of `TransformToFragmentKeys`. -/
def streamErrorToFragmentKeys : JSString :=
  str "☕ SZN - fragmentIndentation does not support Buffer/String streams, only object streams that apply the vinyl-fs specification"

/-- The message of the error of `TransformBackToFragment`. -/
def streamErrorBackToFragment : JSString :=
  str "☕ SZN - fragmentIndentation does not support streams"

/-- The method `_transform` of the stream that `TransformToFragmentKeys` returns; `none` when
the call of `replaceIndentationWithFragmentKey` in it has not returned within the fuel. -/
def TransformToFragmentKeys_transform (fuel : Nat) (file : File) (fragmentArray : Table)
    (random : List JSString) : Option Transformed :=
  if file.isStream then
    some ⟨Ending.called (CallbackArguments.error streamErrorToFragmentKeys), file,
      fragmentArray, random⟩
  else
    match file.contents.toString with
    | none => some ⟨Ending.typeError, file, fragmentArray, random⟩
    | some contents =>
      match replaceIndentationWithFragmentKey fuel ⟨contents, fragmentArray, random⟩ with
      | none => none
      | some st =>
        let written : File := { file with contents := Contents.buffer st.string }
        some ⟨Ending.called (CallbackArguments.data written), written, st.fragmentArray,
          st.random⟩

/-- The method `_transform` of the stream that `TransformBackToFragment` returns. -/
def TransformBackToFragment_transform (file : File) (fragmentArray : Table)
    (random : List JSString) : Transformed :=
  if file.isStream then
    ⟨Ending.called (CallbackArguments.error streamErrorBackToFragment), file, fragmentArray,
      random⟩
  else
    match file.contents.toString with
    | none => ⟨Ending.typeError, file, fragmentArray, random⟩
    | some contents =>
      let written : File :=
        { file with contents := Contents.buffer (replaceOriginalFragment fragmentArray contents) }
      ⟨Ending.called (CallbackArguments.data written), written, fragmentArray, random⟩

/-- The states that the loop of `replaceIndentationWithFragmentKey` goes through from the
state `st`: `st` itself, and the state after a pass of the loop body from a state gone
through whose text has an opening symbol. -/
inductive Reaches (st : State) : State → Prop
  | start : Reaches st st
  | pass {st1 st2 : State} : Reaches st st1 →
      lastIndexOf st1.string openningSymbol ≥ 0 → loopBody [] st1 = some st2 → Reaches st st2

/-! ## The built-in operations -/

theorem lastOccurrence_occurs {pat : JSString} :
    ∀ {s : JSString} {i : Nat}, lastOccurrence pat s = some i → pat <+: s.drop i := by
  intro s
  induction s with
  | nil =>
    intro i h
    simp only [lastOccurrence] at h
    split at h
    · simp_all
    · simp at h
  | cons c s ih =>
    intro i h
    simp only [lastOccurrence] at h
    cases hl : lastOccurrence pat s with
    | some j =>
      rw [hl] at h
      simp only [Option.some.injEq] at h
      subst h
      simpa using ih hl
    | none =>
      rw [hl] at h
      simp only at h
      split at h
      · rename_i hp
        simp only [Option.some.injEq] at h
        subst h
        simpa using List.isPrefixOf_iff_prefix.mp hp
      · simp at h

theorem lastOccurrence_le {pat : JSString} (hp : pat ≠ []) :
    ∀ {s : JSString} {j : Nat}, pat <+: s.drop j →
      ∃ i, lastOccurrence pat s = some i ∧ j ≤ i := by
  intro s
  induction s with
  | nil =>
    intro j h
    simp only [List.drop_nil, List.prefix_nil] at h
    exact absurd h hp
  | cons c s ih =>
    intro j h
    cases j with
    | zero =>
      simp only [List.drop_zero] at h
      simp only [lastOccurrence]
      cases hl : lastOccurrence pat s with
      | some i => exact ⟨i + 1, rfl, Nat.zero_le _⟩
      | none =>
        refine ⟨0, ?_, le_refl _⟩
        simp [List.isPrefixOf_iff_prefix.mpr h]
    | succ j =>
      simp only [List.drop_succ_cons] at h
      obtain ⟨i, hi, hji⟩ := ih h
      exact ⟨i + 1, by simp [lastOccurrence, hi], by omega⟩

theorem lastOccurrence_none {pat : JSString} (hp : pat ≠ []) {s : JSString}
    (h : lastOccurrence pat s = none) (j : Nat) : ¬ pat <+: s.drop j := by
  intro hj
  obtain ⟨i, hi, _⟩ := lastOccurrence_le hp hj
  rw [h] at hi
  exact Option.noConfusion hi

theorem lastOccurrence_bound {pat : JSString} {s : JSString} {i : Nat}
    (h : lastOccurrence pat s = some i) : i + pat.length ≤ s.length := by
  have h1 := (lastOccurrence_occurs h).length_le
  rw [List.length_drop] at h1
  by_cases hp : pat.length = 0
  · have : i ≤ s.length := by
      clear h1
      induction s generalizing i with
      | nil =>
        simp only [lastOccurrence] at h
        split at h <;> simp_all
      | cons c s ih =>
        simp only [lastOccurrence] at h
        cases hl : lastOccurrence pat s with
        | some j =>
          rw [hl] at h
          simp only [Option.some.injEq] at h
          have := ih hl
          simp only [List.length_cons]
          omega
        | none =>
          rw [hl] at h
          simp only at h
          split at h
          · simp only [Option.some.injEq] at h
            omega
          · exact Option.noConfusion h
    omega
  · omega

theorem lastIndexOf_of_some {pat s : JSString} {i : Nat} (h : lastOccurrence pat s = some i) :
    lastIndexOf s pat = (i : Int) := by
  simp [lastIndexOf, h]

theorem lastIndexOf_of_none {pat s : JSString} (h : lastOccurrence pat s = none) :
    lastIndexOf s pat = -1 := by
  simp [lastIndexOf, h]

theorem lastIndexOf_nonneg_iff {pat s : JSString} :
    lastIndexOf s pat ≥ 0 ↔ ∃ i, lastOccurrence pat s = some i := by
  cases h : lastOccurrence pat s with
  | none => simp [lastIndexOf, h]
  | some i => simp [lastIndexOf, h]

theorem endIndex_eq (s : JSString) :
    lastIndexOf s closingSymbol + closingLength = (endIndexOf s : Int) := by
  unfold endIndexOf lastIndexOf closingLength
  cases lastOccurrence closingSymbol s with
  | none => simp
  | some i => simp

theorem endIndexOf_pos (s : JSString) : 1 ≤ endIndexOf s := by
  unfold endIndexOf
  cases lastOccurrence closingSymbol s with
  | none => simp
  | some i => simp

theorem generateKey_empty (r : JSString) (rs : List JSString) :
    generateKey 7 [] (r :: rs) = some (keyOf r, rs) := by
  simp [generateKey, Table.get, keyOf]

theorem substring_nat (s : JSString) (a b : Nat) :
    substring s (a : Int) (b : Int) = (s.drop (min a b)).take (max a b - min a b) := by
  simp only [substring, clampIndex, Int.toNat_ofNat]
  rcases Nat.lt_or_ge s.length (min a b) with h | h
  · rw [List.drop_eq_nil_of_le (by omega), List.drop_eq_nil_of_le (by omega)]
    simp
  · have e1 : min (min a s.length) (min b s.length) = min a b := by omega
    rw [e1]
    apply List.ext_getElem?
    intro n
    simp only [List.getElem?_take, List.getElem?_drop]
    by_cases h1 : n < max a b - min a b
    · by_cases h2 : n < max (min a s.length) (min b s.length) - min a b
      · simp [h1, h2]
      · simp only [h1, h2, if_true, if_false]
        symm
        apply List.getElem?_eq_none
        omega
    · have h2 : ¬ n < max (min a s.length) (min b s.length) - min a b := by omega
      simp [h1, h2]

theorem substring_zero (s : JSString) (a : Nat) : substring s 0 (a : Int) = s.take a := by
  have := substring_nat s 0 a
  simpa using this

theorem substringFrom_nat (s : JSString) (e : Nat) : substringFrom s (e : Int) = s.drop e := by
  simp only [substringFrom, clampIndex, Int.toNat_ofNat]
  rcases Nat.lt_or_ge s.length e with h | h
  · rw [List.drop_eq_nil_of_le (by omega), List.drop_eq_nil_of_le (by omega)]
  · rw [Nat.min_eq_left h]

theorem loopBody_eq (s : JSString) (t : Table) (r : JSString) (rs : List JSString) (a : Nat)
    (h : lastOccurrence openningSymbol s = some a) :
    loopBody [] ⟨s, t, r :: rs⟩ =
      some ⟨s.take a ++ placeholder r ++ s.drop (endIndexOf s),
        t.set (placeholder r) (substring s a (endIndexOf s)), rs⟩ := by
  simp only [loopBody, generateKey_empty, endIndex_eq, lastIndexOf_of_some h,
    replaceBetweenIndexes, substring_zero, substringFrom_nat, placeholder]

theorem whileLoop_succ (fa : Table) (fuel : Nat) (st : State) :
    whileLoop fa (fuel + 1) st =
      if lastIndexOf st.string openningSymbol ≥ 0 then (loopBody fa st).bind (whileLoop fa fuel)
      else some st := by
  simp only [whileLoop]
  split
  · cases loopBody fa st <;> rfl
  · rfl

theorem whileLoop_done (fa : Table) (fuel : Nat) (st : State)
    (h : lastOccurrence openningSymbol st.string = none) :
    whileLoop fa (fuel + 1) st = some st := by
  rw [whileLoop_succ, lastIndexOf_of_none h]
  simp

theorem whileLoop_step (fuel : Nat) (s : JSString) (t : Table) (r : JSString)
    (rs : List JSString) (a : Nat) (h : lastOccurrence openningSymbol s = some a) :
    whileLoop [] (fuel + 1) ⟨s, t, r :: rs⟩ =
      whileLoop [] fuel ⟨s.take a ++ placeholder r ++ s.drop (endIndexOf s),
        t.set (placeholder r) (substring s a (endIndexOf s)), rs⟩ := by
  rw [whileLoop_succ, loopBody_eq s t r rs a h, lastIndexOf_of_some h]
  simp

theorem whileLoop_no_supply (fuel : Nat) (s : JSString) (t : Table) (a : Nat)
    (h : lastOccurrence openningSymbol s = some a) :
    whileLoop [] fuel ⟨s, t, []⟩ = none := by
  cases fuel with
  | zero => rfl
  | succ fuel =>
    rw [whileLoop_succ, lastIndexOf_of_some h]
    simp [loopBody, generateKey]

/-! ## Evaluations at concrete inputs -/

/-- C1, the round trip at a failing input: the well-formed text `<p>{% print('$') %}</p>`,
extracted from an empty table with the random value 0.0078125, becomes
`<p>FRAGMENT0078125</p>`; restoring that text with the table built gives
`<p>{% print('</p>) %}</p>`, which is not the original text. -/
theorem roundTrip_fails_on_dollar_apostrophe :
    ∃ st, replaceIndentationWithFragmentKey 2
        ⟨str "<p>\x7b% print('$') %\x7d</p>", [], [str "0.0078125"]⟩ = some st ∧
      st.string = str "<p>FRAGMENT0078125</p>" ∧
      replaceOriginalFragment st.fragmentArray st.string = str "<p>\x7b% print('</p>) %\x7d</p>" ∧
      replaceOriginalFragment st.fragmentArray st.string ≠ str "<p>\x7b% print('$') %\x7d</p>" :=
  ⟨⟨str "<p>FRAGMENT0078125</p>",
      [(str "FRAGMENT0078125", str "\x7b% print('$') %\x7d")], []⟩,
    by decide, by decide, by decide, by decide⟩

/-- C3, the replacement at failing inputs: `replaceOriginalFragment` does not put the
fragment text in verbatim. In the text `aFRAGMENT0078125b` the fragment `{%$&%}` comes out as
`{%FRAGMENT0078125%}`, `{%$$%}` as `{%$%}`, a fragment with a dollar and a grave accent as the
text before the match, and one with a dollar and an apostrophe as the text after it. -/
theorem replaceOriginalFragment_expands_dollar :
    replaceOriginalFragment [(str "FRAGMENT0078125", str "\x7b%$&%\x7d")] (str "aFRAGMENT0078125b")
        = str "a\x7b%FRAGMENT0078125%\x7db" ∧
      replaceOriginalFragment [(str "FRAGMENT0078125", str "\x7b%$$%\x7d")] (str "aFRAGMENT0078125b")
        = str "a\x7b%$%\x7db" ∧
      replaceOriginalFragment [(str "FRAGMENT0078125", str "\x7b%$`%\x7d")] (str "aFRAGMENT0078125b")
        = str "a\x7b%a%\x7db" ∧
      replaceOriginalFragment [(str "FRAGMENT0078125", str "\x7b%$'%\x7d")] (str "aFRAGMENT0078125b")
        = str "a\x7b%b%\x7db" := by
  decide

/-- C5, key uniqueness at a failing input: when the random source delivers 0.0078125 twice,
both fragments of `{%a%}{%b%}` get the key `0078125`; the second candidate is not rejected,
the returned text is `FRAGMENT0078125FRAGMENT0078125` and the table holds one entry for the
two fragments. -/
theorem colliding_key_is_not_rejected :
    replaceIndentationWithFragmentKey 3
        ⟨str "\x7b%a%\x7d\x7b%b%\x7d", [], [str "0.0078125", str "0.0078125"]⟩
      = some ⟨str "FRAGMENT0078125FRAGMENT0078125",
          [(str "FRAGMENT0078125", str "\x7b%a%\x7d")], []⟩ := by
  decide

/-- C6, the shape of the key at failing inputs: for the renderings `0.5`, `0` and `1.5e-7`
of the random value, `generateKey(7, [])` returns `5`, the empty string and `5e-7`, none of
them seven decimal digits. -/
theorem generateKey_short_renderings :
    generateKey 7 [] [str "0.5"] = some (str "5", []) ∧
      generateKey 7 [] [str "0"] = some ([], []) ∧
      generateKey 7 [] [str "1.5e-7"] = some (str "5e-7", []) := by
  decide

/-- C4, counterexample: the text `{%a` has an opening marker and no closing marker, and
`replaceIndentationWithFragmentKey` returns on it without an error: the result is the text
`FRAGMENT0078125%a` and the table has the new entry `FRAGMENT0078125 -> {`. -/
theorem unbalanced_text_returns :
    replaceIndentationWithFragmentKey 2 ⟨str "\x7b%a", [], [str "0.0078125"]⟩
      = some ⟨str "FRAGMENT0078125%a", [(str "FRAGMENT0078125", str "\x7b")], []⟩ := by
  decide

/-- C7, counterexample: for the generated key `1234567` and the fragment `{% print('x') %}`
the table entry is `FRAGMENT1234567 -> {% print('x') %}`; the table has no property
`1234567`, and restoring the text `1234567 FRAGMENT1234567` leaves the bare digits alone and
replaces the full token. -/
theorem table_key_is_not_bare :
    ∃ st, replaceIndentationWithFragmentKey 2
        ⟨str "<html>\x7b% print('x') %\x7d</html>", [], [str "0.1234567"]⟩ = some st ∧
      st.fragmentArray = [(str "FRAGMENT1234567", str "\x7b% print('x') %\x7d")] ∧
      st.fragmentArray ≠ [(str "1234567", str "\x7b% print('x') %\x7d")] ∧
      st.fragmentArray.get (str "1234567") = none ∧
      replaceOriginalFragment st.fragmentArray (str "1234567 FRAGMENT1234567")
        = str "1234567 \x7b% print('x') %\x7d" :=
  ⟨⟨str "<html>FRAGMENT1234567</html>",
      [(str "FRAGMENT1234567", str "\x7b% print('x') %\x7d")], []⟩,
    by decide, by decide, by decide, by decide, by decide⟩

/-- C8, counterexample: extracting `{%a%}` from an empty table and then `{%b%}` leaves a
table with two entries, the first of them the one recorded for `{%a%}`. -/
theorem table_keeps_earlier_entries :
    ∃ stA, replaceIndentationWithFragmentKey 2
        ⟨str "\x7b%a%\x7d", [], [str "0.0078125", str "0.0234375"]⟩ = some stA ∧
      replaceIndentationWithFragmentKey 2 ⟨str "\x7b%b%\x7d", stA.fragmentArray, stA.random⟩
        = some ⟨str "FRAGMENT0234375",
            [(str "FRAGMENT0078125", str "\x7b%a%\x7d"), (str "FRAGMENT0234375", str "\x7b%b%\x7d")],
            []⟩ :=
  ⟨⟨str "FRAGMENT0078125", [(str "FRAGMENT0078125", str "\x7b%a%\x7d")], [str "0.0234375"]⟩,
    by decide, by decide⟩

/-- C9, counterexample: on the text `FRAGMENT0078125 {%a%}` with the random value 0.0078125
the call returns `FRAGMENT0078125 FRAGMENT0078125`, in which the token recorded in the table
occurs twice. -/
theorem token_occurs_twice :
    ∃ st, replaceIndentationWithFragmentKey 2
        ⟨str "FRAGMENT0078125 \x7b%a%\x7d", [], [str "0.0078125"]⟩ = some st ∧
      st.fragmentArray = [(str "FRAGMENT0078125", str "\x7b%a%\x7d")] ∧
      occurrences (str "FRAGMENT0078125") st.string = 2 :=
  ⟨⟨str "FRAGMENT0078125 FRAGMENT0078125", [(str "FRAGMENT0078125", str "\x7b%a%\x7d")], []⟩,
    by decide, by decide, by decide⟩

/-! ## The table -/

theorem Table.get_set (t : Table) (k v key : JSString) :
    (t.set k v).get key = if k = key then some v else t.get key := by
  induction t with
  | nil => simp [Table.set, Table.get]
  | cons e t ih =>
    obtain ⟨k', v'⟩ := e
    simp only [Table.set]
    by_cases h : k' = k
    · subst h
      by_cases h2 : k' = key <;> simp [Table.get, h2]
    · by_cases h2 : k' = key
      · subst h2
        have h3 : ¬ k = k' := fun e => h e.symm
        simp [Table.get, h, h3]
      · simp [Table.get, h, h2, ih]

theorem Table.get_set_self (t : Table) (k v : JSString) : (t.set k v).get k = some v := by
  simp [Table.get_set]

theorem Table.mem_set {t : Table} {k v : JSString} {e : JSString × JSString}
    (h : e ∈ t.set k v) : e = (k, v) ∨ e ∈ t := by
  induction t with
  | nil => simpa [Table.set] using h
  | cons e' t ih =>
    obtain ⟨k', v'⟩ := e'
    simp only [Table.set] at h
    split at h
    · rename_i hk
      subst hk
      rcases List.mem_cons.mp h with h | h
      · exact Or.inl h
      · exact Or.inr (List.mem_cons_of_mem _ h)
    · rcases List.mem_cons.mp h with h | h
      · exact Or.inr (h ▸ List.mem_cons_self _ _)
      · rcases ih h with h | h
        · exact Or.inl h
        · exact Or.inr (List.mem_cons_of_mem _ h)

/-! ## `replace` -/

theorem splitFirst_some {pat : JSString} :
    ∀ {s before after : JSString}, splitFirst pat s = some (before, after) →
      s = before ++ pat ++ after := by
  intro s
  induction s with
  | nil =>
    intro before after h
    simp only [splitFirst] at h
    split at h
    · rename_i hp
      simp only [Option.some.injEq, Prod.mk.injEq] at h
      simp [← h.1, ← h.2, hp]
    · exact Option.noConfusion h
  | cons c s ih =>
    intro before after h
    simp only [splitFirst] at h
    split at h
    · rename_i hp
      simp only [Option.some.injEq, Prod.mk.injEq] at h
      rw [← h.1, ← h.2]
      have := List.prefix_iff_eq_append.mp (List.isPrefixOf_iff_prefix.mp hp)
      simpa using this.symm
    · cases hs : splitFirst pat s with
      | none => rw [hs] at h; exact Option.noConfusion h
      | some p =>
        obtain ⟨b, a⟩ := p
        rw [hs] at h
        simp only [Option.some.injEq, Prod.mk.injEq] at h
        rw [← h.1, ← h.2, ih hs]
        simp

theorem splitFirst_none {pat : JSString} :
    ∀ {s : JSString}, splitFirst pat s = none → ¬ pat <:+: s := by
  intro s
  induction s with
  | nil =>
    intro h
    simp only [splitFirst] at h
    split at h
    · exact Option.noConfusion h
    · rename_i hp
      simpa using hp
  | cons c s ih =>
    intro h
    simp only [splitFirst] at h
    split at h
    · exact Option.noConfusion h
    · rename_i hp
      cases hs : splitFirst pat s with
      | none =>
        rw [List.infix_cons_iff]
        rintro (h1 | h1)
        · exact hp (List.isPrefixOf_iff_prefix.mpr h1)
        · exact ih hs h1
      | some p =>
        rw [hs] at h
        exact Option.noConfusion h

theorem replace_of_not_infix {s pat v : JSString} (h : ¬ pat <:+: s) : replace s pat v = s := by
  unfold replace
  cases hs : splitFirst pat s with
  | none => rfl
  | some p =>
    obtain ⟨b, a⟩ := p
    exact absurd ⟨b, a, (splitFirst_some hs).symm⟩ h

theorem replace_of_infix {s pat v : JSString} (h : pat <:+: s) :
    ∃ before after, s = before ++ pat ++ after ∧
      replace s pat v = before ++ getSubstitution pat before after v ++ after := by
  unfold replace
  cases hs : splitFirst pat s with
  | none => exact absurd h (splitFirst_none hs)
  | some p =>
    obtain ⟨b, a⟩ := p
    exact ⟨b, a, splitFirst_some hs, rfl⟩

/-! ## Independence of the returned text from the table -/

theorem whileLoop_table (fuel : Nat) :
    ∀ (s : JSString) (t1 t2 t0 : Table) (rs : List JSString) (st1 : State),
      (∀ key, t1.get key = (t2.get key <|> t0.get key)) →
      whileLoop [] fuel ⟨s, t1, rs⟩ = some st1 →
      ∃ st2, whileLoop [] fuel ⟨s, t2, rs⟩ = some st2 ∧ st1.string = st2.string ∧
        st1.random = st2.random ∧
        ∀ key, st1.fragmentArray.get key = (st2.fragmentArray.get key <|> t0.get key) := by
  induction fuel with
  | zero => intro s t1 t2 t0 rs st1 _ h; exact Option.noConfusion h
  | succ fuel ih =>
    intro s t1 t2 t0 rs st1 hrel h
    cases ho : lastOccurrence openningSymbol s with
    | none =>
      rw [whileLoop_done _ _ _ ho] at h
      simp only [Option.some.injEq] at h
      subst h
      exact ⟨_, whileLoop_done _ _ _ ho, rfl, rfl, hrel⟩
    | some a =>
      cases rs with
      | nil =>
        rw [whileLoop_no_supply _ _ _ _ ho] at h
        exact Option.noConfusion h
      | cons r rs =>
        rw [whileLoop_step _ _ _ _ _ _ ho] at h
        rw [whileLoop_step _ _ _ _ _ _ ho]
        refine ih _ _ _ t0 _ st1 ?_ h
        intro key
        rw [Table.get_set, Table.get_set]
        by_cases hk : placeholder r = key
        · simp [hk]
        · simpa [hk] using hrel key

/-! ## The claims on the table key and on the table across calls -/

/-- C7, as amended: a pass of the loop body records the fragment under the full token
`'FRAGMENT' + generatedKey`, which is not the bare generated key; and
`replaceOriginalFragment` with such an entry matches the full token: a text in which the
token does not occur is returned unchanged, and a text in which it occurs is cut around an
occurrence of the whole token, which the expansion of the fragment text replaces. -/
theorem fragment_recorded_under_full_token (s : JSString) (t : Table) (r : JSString)
    (rs : List JSString) (frag text : JSString) :
    (∃ st, loopBody [] ⟨s, t, r :: rs⟩ = some st ∧
      st.fragmentArray = t.set (fragmentKey ++ keyOf r)
        (substring s (lastIndexOf s openningSymbol)
          (lastIndexOf s closingSymbol + closingLength)) ∧
      st.fragmentArray.get (fragmentKey ++ keyOf r) =
        some (substring s (lastIndexOf s openningSymbol)
          (lastIndexOf s closingSymbol + closingLength))) ∧
    fragmentKey ++ keyOf r ≠ keyOf r ∧
    (¬ (fragmentKey ++ keyOf r) <:+: text →
      replaceOriginalFragment [(fragmentKey ++ keyOf r, frag)] text = text) ∧
    ((fragmentKey ++ keyOf r) <:+: text →
      ∃ before after, text = before ++ (fragmentKey ++ keyOf r) ++ after ∧
        replaceOriginalFragment [(fragmentKey ++ keyOf r, frag)] text =
          before ++ getSubstitution (fragmentKey ++ keyOf r) before after frag ++ after) := by
  refine ⟨⟨⟨replaceBetweenIndexes s (lastIndexOf s openningSymbol)
      (lastIndexOf s closingSymbol + closingLength) (fragmentKey ++ keyOf r),
      t.set (fragmentKey ++ keyOf r) _, rs⟩, ?_, rfl, ?_⟩, ?_, ?_, ?_⟩
  · simp only [loopBody, generateKey_empty]
  · exact Table.get_set_self _ _ _
  · intro h
    have := congrArg List.length h
    simp only [fragmentKey, List.length_append, List.length_cons, List.length_nil] at this
    omega
  · intro h
    simp [replaceOriginalFragment, replace_of_not_infix h]
  · intro h
    obtain ⟨b, a, h1, h2⟩ := replace_of_infix (v := frag) h
    exact ⟨b, a, h1, by simpa [replaceOriginalFragment] using h2⟩

/-- C7, as amended, at the text `<html>{% print('x') %}</html>` with the random value
0.1234567, and the restoration of `1234567 FRAGMENT1234567`. -/
theorem fragment_recorded_under_full_token_witness :
    (∃ st, loopBody [] ⟨str "<html>\x7b% print('x') %\x7d</html>", [], [str "0.1234567"]⟩ = some st ∧
      st.fragmentArray.get (str "FRAGMENT1234567") = some (str "\x7b% print('x') %\x7d")) ∧
    (str "FRAGMENT1234567") <:+: (str "1234567 FRAGMENT1234567") ∧
    ∃ before after, str "1234567 FRAGMENT1234567" = before ++ str "FRAGMENT1234567" ++ after ∧
      replaceOriginalFragment [(str "FRAGMENT1234567", str "x")] (str "1234567 FRAGMENT1234567") =
        before ++ getSubstitution (str "FRAGMENT1234567") before after (str "x") ++ after := by
  have h := fragment_recorded_under_full_token (str "<html>\x7b% print('x') %\x7d</html>") []
    (str "0.1234567") [] (str "x") (str "1234567 FRAGMENT1234567")
  have hin : (str "FRAGMENT1234567") <:+: (str "1234567 FRAGMENT1234567") :=
    ⟨str "1234567 ", [], by decide⟩
  have e : fragmentKey ++ keyOf (str "0.1234567") = str "FRAGMENT1234567" := by decide
  rw [e] at h
  obtain ⟨⟨st, h1, -, h3⟩, -, -, h5⟩ := h
  exact ⟨⟨st, h1, h3.trans (by decide)⟩, hin, h5 hin⟩

/-- C8, as amended: the table is emptied by the constructor of `TransformToFragmentKeys`
only, and a call of `replaceIndentationWithFragmentKey` adds to the table it finds. When the
text `A` has been extracted and `B` is extracted next, the text returned for `B` and the
random values used are those of an extraction of `B` from an emptied table; the table then
holds, under every name, the entry of that extraction when it has one, and the entry
recorded before (for `A`) otherwise. -/
theorem table_after_two_extractions (fuelA fuelB : Nat) (A B : JSString)
    (random : List JSString) (stA stAB : State)
    (hA : replaceIndentationWithFragmentKey fuelA ⟨A, [], random⟩ = some stA)
    (hB : replaceIndentationWithFragmentKey fuelB ⟨B, stA.fragmentArray, stA.random⟩ = some stAB) :
    ∃ stB, replaceIndentationWithFragmentKey fuelB
        ⟨B, TransformToFragmentKeys_constructor stA.fragmentArray, stA.random⟩ = some stB ∧
      stAB.string = stB.string ∧ stAB.random = stB.random ∧
      ∀ key, stAB.fragmentArray.get key =
        (stB.fragmentArray.get key <|> stA.fragmentArray.get key) := by
  have _ := hA
  exact whileLoop_table fuelB B stA.fragmentArray [] stA.fragmentArray stA.random stAB
    (fun key => by simp [Table.get]) hB

/-- C8, as amended, at the texts `{%a%}` and `{%b%}`. -/
theorem table_after_two_extractions_witness :
    ∃ stB, replaceIndentationWithFragmentKey 2
        ⟨str "\x7b%b%\x7d", TransformToFragmentKeys_constructor
          [(str "FRAGMENT0078125", str "\x7b%a%\x7d")], [str "0.0234375"]⟩ = some stB ∧
      str "FRAGMENT0234375" = stB.string ∧ [] = stB.random ∧
      ∀ key, Table.get [(str "FRAGMENT0078125", str "\x7b%a%\x7d"),
          (str "FRAGMENT0234375", str "\x7b%b%\x7d")] key =
        (stB.fragmentArray.get key <|>
          Table.get [(str "FRAGMENT0078125", str "\x7b%a%\x7d")] key) :=
  table_after_two_extractions 2 2 (str "\x7b%a%\x7d") (str "\x7b%b%\x7d")
    [str "0.0078125", str "0.0234375"]
    ⟨str "FRAGMENT0078125", [(str "FRAGMENT0078125", str "\x7b%a%\x7d")], [str "0.0234375"]⟩
    ⟨str "FRAGMENT0234375", [(str "FRAGMENT0078125", str "\x7b%a%\x7d"),
      (str "FRAGMENT0234375", str "\x7b%b%\x7d")], []⟩
    (by decide) (by decide)

/-! ## Occurrences of a pattern in a text

The pattern `pat` occurs in `s` at the index `c` when `pat <+: s.drop c`. -/

theorem occurs_iff {pat s : JSString} {c : Nat} :
    pat <+: s.drop c ↔ ∀ i (h : i < pat.length), s[c + i]? = some pat[i] := by
  rw [List.isPrefix_iff]
  simp only [List.getElem?_drop]

theorem occurs_bound {pat s : JSString} {c : Nat} (hp : pat ≠ []) (h : pat <+: s.drop c) :
    c + pat.length ≤ s.length := by
  have h1 := h.length_le
  rw [List.length_drop] at h1
  have : 0 < pat.length := List.length_pos.mpr hp
  omega

theorem occurs_append_left {pat A X : JSString} {c : Nat} (h : pat <+: A.drop c)
    (hc : c ≤ A.length) : pat <+: (A ++ X).drop c := by
  rw [List.drop_append_of_le_length hc]
  exact h.trans (List.prefix_append _ _)

theorem occurs_of_take {pat s : JSString} {a c : Nat} (h : pat <+: (s.take a).drop c)
    (hp : pat ≠ []) : pat <+: s.drop c := by
  have hb := occurs_bound hp h
  have := occurs_append_left (X := s.drop a) h (by omega)
  rwa [List.take_append_drop] at this

theorem occurs_append_right {pat A D : JSString} {j : Nat} (h : pat <+: D.drop j) :
    pat <+: (A ++ D).drop (A.length + j) := by
  rw [List.drop_append]
  exact h

/-- Where a pattern can occur in `A ++ P ++ D`: inside `A`, over the first unit of `P`, from
a unit of `P` on, or inside `D`. -/
theorem occurs_in_replaced {pat A P D : JSString} {c : Nat} (hP : P ≠ []) (hpat : pat ≠ [])
    (h : pat <+: (A ++ P ++ D).drop c) :
    (c + pat.length ≤ A.length ∧ pat <+: A.drop c) ∨
    (c < A.length ∧ A.length < c + pat.length ∧ pat[A.length - c]? = P[0]?) ∨
    (A.length ≤ c ∧ c < A.length + P.length ∧ 0 < pat.length ∧ pat[0]? = P[c - A.length]?) ∨
    (A.length + P.length ≤ c ∧ pat <+: D.drop (c - A.length - P.length)) := by
  have hPl : 0 < P.length := List.length_pos.mpr hP
  rw [occurs_iff] at h
  by_cases h1 : c + pat.length ≤ A.length
  · left
    refine ⟨h1, occurs_iff.mpr ?_⟩
    intro i hi
    rw [← h i hi, List.append_assoc, List.getElem?_append_left (by omega)]
  · by_cases h2 : c < A.length
    · right; left
      refine ⟨h2, by omega, ?_⟩
      have := h (A.length - c) (by omega)
      rw [List.append_assoc, List.getElem?_append_right (by omega),
        List.getElem?_append_left (by omega)] at this
      rw [List.getElem?_eq_getElem (by omega : A.length - c < pat.length), ← this]
      congr 1
      omega
    · by_cases h3 : c < A.length + P.length
      · right; right; left
        have hp0 : 0 < pat.length := List.length_pos.mpr hpat
        refine ⟨by omega, h3, hp0, ?_⟩
        have := h 0 hp0
        rw [List.append_assoc, List.getElem?_append_right (by omega),
          List.getElem?_append_left (by omega)] at this
        rw [List.getElem?_eq_getElem hp0, ← this]
        rfl
      · right; right; right
        refine ⟨by omega, occurs_iff.mpr ?_⟩
        intro i hi
        rw [← h i hi, List.getElem?_append_right (by simp; omega)]
        congr 1
        simp only [List.length_append]
        omega

/-- A two-unit pattern none of whose units is in `P` occurs in `A ++ P ++ D` only inside `A`
or inside `D`. -/
theorem marker_in_replaced {x y : Char} {A P D : JSString} {c : Nat} (hP : P ≠ [])
    (hx : x ∉ P) (hy : y ∉ P) (h : [x, y] <+: (A ++ P ++ D).drop c) :
    (c + 2 ≤ A.length ∧ [x, y] <+: A.drop c) ∨
    (A.length + P.length ≤ c ∧ [x, y] <+: D.drop (c - A.length - P.length)) := by
  rcases occurs_in_replaced hP (List.cons_ne_nil _ _) h with h1 | h1 | h1 | h1
  · exact Or.inl h1
  · obtain ⟨h1, h2, h3⟩ := h1
    simp only [List.length_cons, List.length_nil] at h2
    have e : A.length - c = 1 := by omega
    rw [e] at h3
    have hPl : 0 < P.length := List.length_pos.mpr hP
    rw [List.getElem?_eq_getElem hPl] at h3
    simp only [List.getElem?_cons_succ, List.getElem?_cons_zero, Option.some.injEq] at h3
    exact absurd (h3 ▸ List.getElem_mem _) hy
  · obtain ⟨h1, h2, _, h3⟩ := h1
    rw [List.getElem?_eq_getElem (by omega : c - A.length < P.length)] at h3
    simp only [List.getElem?_cons_zero, Option.some.injEq] at h3
    exact absurd (h3 ▸ List.getElem_mem _) hx
  · exact Or.inr h1

/-! ## The units of a placeholder -/

theorem openningSymbol_ne_nil : openningSymbol ≠ [] := List.cons_ne_nil _ _

theorem closingSymbol_ne_nil : closingSymbol ≠ [] := List.cons_ne_nil _ _

theorem mem_keyOf {r : JSString} {u : Char} (h : u ∈ keyOf r) : u ∈ r := by
  unfold keyOf slice at h
  exact List.mem_of_mem_drop (List.mem_of_mem_take h)

theorem placeholder_ne_nil (r : JSString) : placeholder r ≠ [] := by
  simp [placeholder, fragmentKey]

theorem mem_placeholder {r : JSString} (hr : isRendering r) {u : Char}
    (h : u ∈ placeholder r) : u ∈ fragmentKey ∨ u ∈ renderingUnits := by
  rcases List.mem_append.mp h with h | h
  · exact Or.inl h
  · exact Or.inr (hr u (mem_keyOf h))

theorem brace_open_not_mem {r : JSString} (hr : isRendering r) : '{' ∉ placeholder r := by
  intro h
  rcases mem_placeholder hr h with h | h <;> revert h <;> decide

theorem percent_not_mem {r : JSString} (hr : isRendering r) : '%' ∉ placeholder r := by
  intro h
  rcases mem_placeholder hr h with h | h <;> revert h <;> decide

theorem brace_close_not_mem {r : JSString} (hr : isRendering r) : '}' ∉ placeholder r := by
  intro h
  rcases mem_placeholder hr h with h | h <;> revert h <;> decide

/-! ## The markers of the text after a pass of the loop -/

theorem closing_after_pass {s : JSString} {a : Nat} {r : JSString} (hr : isRendering r)
    (ha : lastOccurrence openningSymbol s = some a) {c : Nat}
    (h : closingSymbol <+: (s.take a ++ placeholder r ++ s.drop (endIndexOf s)).drop c) :
    c + 2 ≤ a ∧ closingSymbol <+: s.drop c := by
  have hb := lastOccurrence_bound ha
  have hl : (s.take a).length = a := by rw [List.length_take]; omega
  rcases marker_in_replaced (placeholder_ne_nil r) (percent_not_mem hr) (brace_close_not_mem hr)
    h with h1 | h1
  · rw [hl] at h1
    exact ⟨h1.1, occurs_of_take h1.2 closingSymbol_ne_nil⟩
  · exfalso
    obtain ⟨_, h2⟩ := h1
    rw [List.drop_drop] at h2
    obtain ⟨i, hi, hle⟩ := lastOccurrence_le closingSymbol_ne_nil h2
    have hi : lastOccurrence closingSymbol s = some i := hi
    have : endIndexOf s = i + 2 := by
      unfold endIndexOf
      rw [hi]
    omega

theorem openning_after_pass {s : JSString} {a : Nat} {r : JSString} (hr : isRendering r)
    (ha : lastOccurrence openningSymbol s = some a) {o : Nat}
    (h : openningSymbol <+: (s.take a ++ placeholder r ++ s.drop (endIndexOf s)).drop o) :
    (o + 2 ≤ a ∧ openningSymbol <+: s.drop o) ∨
    (endIndexOf s ≤ a ∧ a + (placeholder r).length ≤ o) := by
  have hb := lastOccurrence_bound ha
  have hl : (s.take a).length = a := by rw [List.length_take]; omega
  rcases marker_in_replaced (placeholder_ne_nil r) (brace_open_not_mem hr) (percent_not_mem hr)
    h with h1 | h1
  · rw [hl] at h1
    exact Or.inl ⟨h1.1, occurs_of_take h1.2 openningSymbol_ne_nil⟩
  · right
    obtain ⟨h1, h2⟩ := h1
    rw [hl] at h1
    rw [List.drop_drop] at h2
    obtain ⟨i, hi, hle⟩ := lastOccurrence_le openningSymbol_ne_nil h2
    have hi : lastOccurrence openningSymbol s = some i := hi
    rw [ha] at hi
    simp only [Option.some.injEq] at hi
    exact ⟨by omega, h1⟩

/-! ## Placeholders are kept by later passes -/

theorem infix_iff_occurs {pat s : JSString} : pat <:+: s ↔ ∃ c, pat <+: s.drop c := by
  constructor
  · rintro ⟨X, Y, h⟩
    refine ⟨X.length, Y, ?_⟩
    rw [← h, List.append_assoc, List.drop_left]
  · rintro ⟨c, Z, h⟩
    refine ⟨s.take c, Z, ?_⟩
    rw [List.append_assoc, h, List.take_append_drop]

theorem endIndexOf_le_of_survives {s tok : JSString} {a : Nat}
    (ha : lastOccurrence openningSymbol s = some a) {X Y : JSString}
    (hcl : ∀ c, closingSymbol <+: s.drop c → c + 2 ≤ X.length)
    (hop : ∀ o, openningSymbol <+: s.drop o → 1 ≤ X.length) (_hs : s = X ++ tok ++ Y) :
    endIndexOf s ≤ X.length := by
  unfold endIndexOf
  cases hc : lastOccurrence closingSymbol s with
  | none => exact hop a (lastOccurrence_occurs ha)
  | some i => exact hcl i (lastOccurrence_occurs hc)

theorem survives_pass {s tok : JSString} {a : Nat} {r : JSString} (hr : isRendering r)
    (ha : lastOccurrence openningSymbol s = some a) (h : Survives s tok) :
    Survives (s.take a ++ placeholder r ++ s.drop (endIndexOf s)) tok := by
  obtain ⟨X, Y, hs, hcl, hop⟩ := h
  have he := endIndexOf_le_of_survives ha hcl hop hs
  have hd : s.drop (endIndexOf s) = X.drop (endIndexOf s) ++ tok ++ Y := by
    generalize endIndexOf s = e at he
    rw [hs, List.append_assoc, List.drop_append_of_le_length he, List.append_assoc]
  refine ⟨s.take a ++ placeholder r ++ X.drop (endIndexOf s), Y, ?_, ?_, ?_⟩
  · rw [hd]
    simp only [List.append_assoc]
  · intro c hc
    have := (closing_after_pass hr ha hc).1
    have hb := lastOccurrence_bound ha
    simp only [List.length_append, List.length_take]
    omega
  · intro o _
    have : 0 < (placeholder r).length := List.length_pos.mpr (placeholder_ne_nil r)
    simp only [List.length_append]
    omega

theorem survives_new {s : JSString} {a : Nat} {r : JSString} (hr : isRendering r)
    (ha : lastOccurrence openningSymbol s = some a) :
    Survives (s.take a ++ placeholder r ++ s.drop (endIndexOf s)) (placeholder r) := by
  have hb := lastOccurrence_bound ha
  have hl : (s.take a).length = a := by rw [List.length_take]; omega
  refine ⟨s.take a, s.drop (endIndexOf s), rfl, ?_, ?_⟩
  · intro c hc
    rw [hl]
    exact (closing_after_pass hr ha hc).1
  · intro o ho
    rw [hl]
    have := endIndexOf_pos s
    rcases openning_after_pass hr ha ho with h | h <;> omega

theorem whileLoop_survives (R : List JSString) (fuel : Nat) :
    ∀ (st st' : State), (∀ r ∈ st.random, r ∈ R ∧ isRendering r) →
      (∀ e ∈ st.fragmentArray, (∃ r ∈ R, e.1 = placeholder r) ∧ Survives st.string e.1) →
      whileLoop [] fuel st = some st' →
      ∀ e ∈ st'.fragmentArray, (∃ r ∈ R, e.1 = placeholder r) ∧ Survives st'.string e.1 := by
  induction fuel with
  | zero => intro st st' _ _ h; exact Option.noConfusion h
  | succ fuel ih =>
    intro st st' hR hinv h
    obtain ⟨s, t, rs⟩ := st
    cases ho : lastOccurrence openningSymbol s with
    | none =>
      rw [whileLoop_done _ _ _ ho] at h
      simp only [Option.some.injEq] at h
      subst h
      exact hinv
    | some a =>
      cases rs with
      | nil =>
        rw [whileLoop_no_supply _ _ _ _ ho] at h
        exact Option.noConfusion h
      | cons r rs =>
        rw [whileLoop_step _ _ _ _ _ _ ho] at h
        have hr := hR r (List.mem_cons_self _ _)
        refine ih _ st' ?_ ?_ h
        · intro r' hr'
          exact hR r' (List.mem_cons_of_mem _ hr')
        · intro e he
          rcases Table.mem_set he with he | he
          · subst he
            exact ⟨⟨r, hr.1, rfl⟩, survives_new hr.2 ho⟩
          · exact ⟨(hinv e he).1, survives_pass hr.2 ho (hinv e he).2⟩

/-! ## The claims on unbalanced texts and on the placeholders of the returned text -/

/-- C4, as amended: for every text that contains an opening marker `{%` and no closing marker
`%}`, no error is raised. The value of `endIndex` is `1`, and the pass of the loop body adds
the entry `FRAGMENT<key> -> text.substring(startIndex, 1)` to the table and goes on with the
text `text.substring(0, startIndex) + FRAGMENT<key> + text.substring(1)`; when the opening
marker is at index `0` the call returns that text, `FRAGMENT<key>` followed by the text from
index `1` on, with the entry `FRAGMENT<key> -> {`. -/
theorem unbalanced_pass_records_and_goes_on (s : JSString) (t : Table) (r : JSString)
    (rs : List JSString) (hr : isRendering r) (hopen : openningSymbol <:+: s)
    (hclose : ¬ closingSymbol <:+: s) :
    ∃ a : Nat, lastIndexOf s openningSymbol = (a : Int) ∧
      lastIndexOf s closingSymbol + closingLength = 1 ∧
      loopBody [] ⟨s, t, r :: rs⟩ =
        some ⟨s.take a ++ (fragmentKey ++ keyOf r) ++ s.drop 1,
          t.set (fragmentKey ++ keyOf r) (substring s a 1), rs⟩ ∧
      (a = 0 → ∀ fuel, replaceIndentationWithFragmentKey (fuel + 2) ⟨s, t, r :: rs⟩ =
        some ⟨(fragmentKey ++ keyOf r) ++ s.drop 1, t.set (fragmentKey ++ keyOf r) ['{'], rs⟩) := by
  obtain ⟨c, hc⟩ := infix_iff_occurs.mp hopen
  obtain ⟨a, ha, _⟩ := lastOccurrence_le openningSymbol_ne_nil hc
  have hn : lastOccurrence closingSymbol s = none := by
    cases h : lastOccurrence closingSymbol s with
    | none => rfl
    | some i => exact absurd (infix_iff_occurs.mpr ⟨i, lastOccurrence_occurs h⟩) hclose
  have he : endIndexOf s = 1 := by
    unfold endIndexOf
    rw [hn]
  have hbody := loopBody_eq s t r rs a ha
  rw [he] at hbody
  refine ⟨a, lastIndexOf_of_some ha, ?_, hbody, ?_⟩
  · rw [endIndex_eq, he]
    rfl
  · intro ha0 fuel
    subst ha0
    have hstep := whileLoop_step (fuel + 1) s t r rs 0 ha
    rw [he] at hstep
    unfold replaceIndentationWithFragmentKey
    rw [hstep]
    have hsub : substring s ((0 : Nat) : Int) ((1 : Nat) : Int) = ['{'] := by
      rw [substring_nat]
      have := lastOccurrence_occurs ha
      obtain ⟨Z, hZ⟩ := this
      simp only [List.drop_zero] at hZ
      rw [← hZ]
      rfl
    have hnone : lastOccurrence openningSymbol
        (s.take 0 ++ placeholder r ++ s.drop 1) = none := by
      cases h : lastOccurrence openningSymbol (s.take 0 ++ placeholder r ++ s.drop 1) with
      | none => rfl
      | some o =>
        exfalso
        have ho := lastOccurrence_occurs h
        rw [← he] at ho
        have := endIndexOf_pos s
        rcases openning_after_pass hr ha ho with h1 | h1 <;> omega
    rw [whileLoop_done _ _ _ hnone, hsub]
    simp [placeholder]

/-- C4, as amended, at the text `{%a` with the random value 0.0078125. -/
theorem unbalanced_pass_records_and_goes_on_witness :
    ∃ a : Nat, lastIndexOf (str "\x7b%a") openningSymbol = (a : Int) ∧
      lastIndexOf (str "\x7b%a") closingSymbol + closingLength = 1 ∧
      loopBody [] ⟨str "\x7b%a", [], [str "0.0078125"]⟩ =
        some ⟨(str "\x7b%a").take a ++ (fragmentKey ++ keyOf (str "0.0078125"))
            ++ (str "\x7b%a").drop 1,
          Table.set [] (fragmentKey ++ keyOf (str "0.0078125")) (substring (str "\x7b%a") a 1),
          []⟩ ∧
      (a = 0 → ∀ fuel, replaceIndentationWithFragmentKey (fuel + 2)
          ⟨str "\x7b%a", [], [str "0.0078125"]⟩ =
        some ⟨(fragmentKey ++ keyOf (str "0.0078125")) ++ (str "\x7b%a").drop 1,
          Table.set [] (fragmentKey ++ keyOf (str "0.0078125")) ['{'], []⟩) :=
  unbalanced_pass_records_and_goes_on (str "\x7b%a") [] (str "0.0078125") [] (by decide)
    ⟨[], str "a", by decide⟩
    (by rw [infix_iff_occurs]; rintro ⟨c, hc⟩
        have hb := occurs_bound closingSymbol_ne_nil hc
        have hc3 : c < 2 := by
          simp only [str, closingSymbol, String.toList, List.length_cons, List.length_nil] at hb
          omega
        interval_cases c <;> revert hc <;> decide)

/-- C10, counterexample: on `A{%1%}B{%2%}C` with the random values 0.0078125 and 0.0234375
the table built has the key `FRAGMENT0078125`, and `'FRAGMENT'` followed by that key,
`FRAGMENTFRAGMENT0078125`, does not occur in the text returned. -/
theorem fragmentKey_before_table_key_is_absent :
    ∃ st, replaceIndentationWithFragmentKey 3
        ⟨str "A\x7b%1%\x7dB\x7b%2%\x7dC", [], [str "0.0078125", str "0.0234375"]⟩ = some st ∧
      (str "FRAGMENT0078125", str "\x7b%2%\x7d") ∈ st.fragmentArray ∧
      st.string = str "AFRAGMENT0234375BFRAGMENT0078125C" ∧
      ¬ (fragmentKey ++ str "FRAGMENT0078125") <:+: st.string :=
  ⟨⟨str "AFRAGMENT0234375BFRAGMENT0078125C",
      [(str "FRAGMENT0078125", str "\x7b%2%\x7d"), (str "FRAGMENT0234375", str "\x7b%1%\x7d")], []⟩,
    by decide, by decide, by decide, by decide⟩

/-- C10, as amended: for every text on which `replaceIndentationWithFragmentKey` returns
(the table empty at the start, the random values number renderings), every key of the table
it built is itself `'FRAGMENT'` followed by a generated key, and that key of the table
occurs in the returned text as an exact substring: no later pass of the loop removes or
splits a placeholder inserted earlier. -/
theorem placeholders_in_returned_text (fuel : Nat) (string : JSString)
    (random : List JSString) (st : State) (hr : ∀ r ∈ random, isRendering r)
    (h : replaceIndentationWithFragmentKey fuel ⟨string, [], random⟩ = some st) :
    ∀ e ∈ st.fragmentArray,
      (∃ r ∈ random, e.1 = fragmentKey ++ keyOf r) ∧ e.1 <:+: st.string := by
  intro e he
  have := whileLoop_survives random fuel ⟨string, [], random⟩ st
    (fun r hr' => ⟨hr', hr r hr'⟩) (fun e he => absurd he (List.not_mem_nil e)) h e he
  obtain ⟨h1, X, Y, h2, _⟩ := this
  exact ⟨h1, X, Y, h2.symm⟩

/-- C10, as amended, at the text `A{%1%}B{%2%}C` with the random values 0.0078125 and
0.0234375: both keys of the table built occur in the returned text. -/
theorem placeholders_in_returned_text_witness :
    ((∃ r ∈ [str "0.0078125", str "0.0234375"], str "FRAGMENT0078125" = fragmentKey ++ keyOf r) ∧
        str "FRAGMENT0078125" <:+: str "AFRAGMENT0234375BFRAGMENT0078125C") ∧
      ((∃ r ∈ [str "0.0078125", str "0.0234375"], str "FRAGMENT0234375" = fragmentKey ++ keyOf r) ∧
        str "FRAGMENT0234375" <:+: str "AFRAGMENT0234375BFRAGMENT0078125C") :=
  have h := placeholders_in_returned_text 3 (str "A\x7b%1%\x7dB\x7b%2%\x7dC")
    [str "0.0078125", str "0.0234375"]
    ⟨str "AFRAGMENT0234375BFRAGMENT0078125C",
      [(str "FRAGMENT0078125", str "\x7b%2%\x7d"), (str "FRAGMENT0234375", str "\x7b%1%\x7d")], []⟩
    (by decide) (by decide)
  ⟨h (str "FRAGMENT0078125", str "\x7b%2%\x7d") (List.mem_cons_self _ _),
    h (str "FRAGMENT0234375", str "\x7b%1%\x7d")
      (List.mem_cons_of_mem _ (List.mem_cons_self _ _))⟩

/-! ## Texts with well-paired fragments -/

theorem lastOccurrence_eq {pat s : JSString} {i : Nat} (hp : pat ≠ []) (hi : pat <+: s.drop i)
    (hmax : ∀ j, pat <+: s.drop j → j ≤ i) : lastOccurrence pat s = some i := by
  obtain ⟨k, hk, hik⟩ := lastOccurrence_le hp hi
  have := hmax k (lastOccurrence_occurs hk)
  rw [hk]
  congr 1
  omega

theorem textOf_append (ps qs : List (JSString × JSString)) (last : JSString) :
    textOf (ps ++ qs) last = textOf ps (textOf qs last) := by
  induction ps with
  | nil => rfl
  | cons p ps ih => simp [textOf, ih]

theorem textOf_last_append (ps : List (JSString × JSString)) (x y : JSString) :
    textOf ps (x ++ y) = textOf ps x ++ y := by
  induction ps with
  | nil => rfl
  | cons p ps ih => simp [textOf, ih]

theorem textOf_length (ps : List (JSString × JSString)) (x : JSString) :
    (textOf ps x).length = (textOf ps []).length + x.length := by
  have := textOf_last_append ps [] x
  simp only [List.nil_append] at this
  rw [this, List.length_append]

theorem openDelimiters_append (ps : List (JSString × JSString)) (p : JSString × JSString) :
    ∀ off, openDelimiters (ps ++ [p]) off =
      openDelimiters ps off ++ [off + (textOf ps p.1).length] := by
  induction ps with
  | nil => intro off; simp [openDelimiters, textOf]
  | cons q ps ih =>
    intro off
    rw [List.cons_append]
    simp only [openDelimiters]
    rw [ih]
    simp only [textOf, List.length_append, Nat.add_assoc]
    rfl

theorem closeDelimiters_append (ps : List (JSString × JSString)) (p : JSString × JSString) :
    ∀ off, closeDelimiters (ps ++ [p]) off =
      closeDelimiters ps off ++ [off + (textOf ps p.1).length + 2 + p.2.length] := by
  induction ps with
  | nil => intro off; simp [closeDelimiters, textOf]
  | cons q ps ih =>
    intro off
    rw [List.cons_append]
    simp only [closeDelimiters]
    rw [ih]
    simp only [textOf, List.length_append, Nat.add_assoc]
    rfl

theorem openDelimiters_bound (ps : List (JSString × JSString)) :
    ∀ off x, x ∈ openDelimiters ps off → x + 2 ≤ off + (textOf ps []).length := by
  induction ps with
  | nil => intro off x h; simp [openDelimiters] at h
  | cons q ps ih =>
    intro off x h
    simp only [openDelimiters, List.mem_cons] at h
    simp only [textOf, List.length_append, fragmentOf, openningSymbol, closingSymbol,
      List.length_cons, List.length_nil] at *
    rcases h with h | h
    · omega
    · have := ih _ _ h
      omega

theorem closeDelimiters_bound (ps : List (JSString × JSString)) :
    ∀ off x, x ∈ closeDelimiters ps off → x + 2 ≤ off + (textOf ps []).length := by
  induction ps with
  | nil => intro off x h; simp [closeDelimiters] at h
  | cons q ps ih =>
    intro off x h
    simp only [closeDelimiters, List.mem_cons] at h
    simp only [textOf, List.length_append, fragmentOf, openningSymbol, closingSymbol,
      List.length_cons, List.length_nil] at *
    rcases h with h | h
    · omega
    · have := ih _ _ h
      omega

theorem pass_wellPaired (L b last : JSString)
    (hmaxo : ∀ j, openningSymbol <+: (L ++ fragmentOf b ++ last).drop j → j ≤ L.length)
    (hmaxc : ∀ j, closingSymbol <+: (L ++ fragmentOf b ++ last).drop j →
      j ≤ L.length + 2 + b.length) :
    lastOccurrence openningSymbol (L ++ fragmentOf b ++ last) = some L.length ∧
      endIndexOf (L ++ fragmentOf b ++ last) = L.length + b.length + 4 ∧
      (L ++ fragmentOf b ++ last).take L.length = L ∧
      (L ++ fragmentOf b ++ last).drop (L.length + b.length + 4) = last ∧
      substring (L ++ fragmentOf b ++ last) (L.length : Nat) ((L.length + b.length + 4 : Nat) : Int)
        = fragmentOf b := by
  have hFl : (fragmentOf b).length = b.length + 4 := by
    simp only [fragmentOf, openningSymbol, closingSymbol, List.length_append, List.length_cons,
      List.length_nil]
    omega
  have ho : lastOccurrence openningSymbol (L ++ fragmentOf b ++ last) = some L.length := by
    apply lastOccurrence_eq openningSymbol_ne_nil _ hmaxo
    rw [List.append_assoc, List.drop_left]
    exact ⟨b ++ closingSymbol ++ last, by simp [fragmentOf]⟩
  have hc : lastOccurrence closingSymbol (L ++ fragmentOf b ++ last)
      = some (L.length + 2 + b.length) := by
    apply lastOccurrence_eq closingSymbol_ne_nil _ hmaxc
    have e : L ++ fragmentOf b ++ last = (L ++ openningSymbol ++ b) ++ (closingSymbol ++ last) := by
      simp [fragmentOf]
    have el : L.length + 2 + b.length = (L ++ openningSymbol ++ b).length := by
      simp only [openningSymbol, List.length_append, List.length_cons, List.length_nil]
    rw [e, el, List.drop_left]
    exact List.prefix_append _ _
  have hd : (L ++ fragmentOf b ++ last).drop (L.length + b.length + 4) = last := by
    have el : L.length + b.length + 4 = (L ++ fragmentOf b).length := by
      rw [List.length_append, hFl]; omega
    rw [el, List.drop_left]
  refine ⟨ho, ?_, ?_, hd, ?_⟩
  · unfold endIndexOf
    rw [hc]
    simp only
    omega
  · rw [List.append_assoc, List.take_left]
  · rw [substring_nat]
    have e1 : min L.length (L.length + b.length + 4) = L.length := by omega
    have e2 : max L.length (L.length + b.length + 4) - L.length = (fragmentOf b).length := by
      rw [hFl]; omega
    rw [e1, e2, List.append_assoc, List.drop_left, List.take_left]

theorem replacedOf_append (p : JSString × JSString) (k last : JSString) :
    ∀ (ps : List (JSString × JSString)) (ks : List JSString), ps.length = ks.length →
      replacedOf (ps ++ [p]) (ks ++ [k]) last
        = replacedOf ps ks (p.1 ++ (fragmentKey ++ k) ++ last) := by
  intro ps
  induction ps with
  | nil =>
    intro ks h
    cases ks with
    | nil => simp [replacedOf]
    | cons k' ks => simp at h
  | cons q ps ih =>
    intro ks h
    cases ks with
    | nil => simp at h
    | cons k' ks =>
      simp only [List.length_cons, Nat.add_right_cancel_iff] at h
      rw [List.cons_append, List.cons_append]
      simp only [replacedOf]
      rw [ih ks h]

theorem whileLoop_wellPaired (pieces : List (JSString × JSString)) :
    ∀ (last : JSString) (table : Table) (random : List JSString) (fuel : Nat),
      (∀ c, openningSymbol <+: (textOf pieces last).drop c → c ∈ openDelimiters pieces 0) →
      (∀ c, closingSymbol <+: (textOf pieces last).drop c → c ∈ closeDelimiters pieces 0) →
      (∀ r ∈ random, isRendering r) → pieces.length ≤ random.length → pieces.length < fuel →
      whileLoop [] fuel ⟨textOf pieces last, table, random⟩ =
        some ⟨replacedOf pieces ((random.take pieces.length).map keyOf).reverse last,
          (recordsOf pieces random).foldl (fun t e => t.set e.1 e.2) table,
          random.drop pieces.length⟩ := by
  induction pieces using List.reverseRecOn with
  | nil =>
    intro last table random fuel hopen _ _ _ hfuel
    obtain ⟨f, rfl⟩ : ∃ f, fuel = f + 1 := ⟨fuel - 1, by simp at hfuel; omega⟩
    have hn : lastOccurrence openningSymbol last = none := by
      cases h : lastOccurrence openningSymbol last with
      | none => rfl
      | some o =>
        have := hopen o (lastOccurrence_occurs h)
        simp [openDelimiters] at this
    simp only [textOf]
    rw [whileLoop_done _ _ _ hn]
    simp [replacedOf, recordsOf]
  | append_singleton ps p ih =>
    intro last table random fuel hopen hclose hr hlen hfuel
    obtain ⟨t, b⟩ := p
    simp only [List.length_append, List.length_cons, List.length_nil] at hlen hfuel
    obtain ⟨f, rfl⟩ : ∃ f, fuel = f + 1 := ⟨fuel - 1, by omega⟩
    obtain ⟨r, rs, rfl⟩ : ∃ r rs, random = r :: rs := by
      cases random with
      | nil => simp at hlen
      | cons r rs => exact ⟨r, rs, rfl⟩
    simp only [List.length_cons] at hlen
    have hT : textOf (ps ++ [(t, b)]) last = textOf ps t ++ fragmentOf b ++ last := by
      rw [textOf_append]
      simp only [textOf]
      rw [← textOf_last_append, ← textOf_last_append]
    have hLlen := textOf_length ps t
    rw [openDelimiters_append] at hopen
    rw [closeDelimiters_append] at hclose
    rw [hT] at hopen hclose
    simp only [Nat.zero_add] at hopen hclose
    have hmaxo : ∀ j, openningSymbol <+: (textOf ps t ++ fragmentOf b ++ last).drop j →
        j ≤ (textOf ps t).length := by
      intro j hj
      rcases List.mem_append.mp (hopen j hj) with h | h
      · have := openDelimiters_bound ps 0 j h
        omega
      · simp only [List.mem_singleton] at h
        omega
    have hmaxc : ∀ j, closingSymbol <+: (textOf ps t ++ fragmentOf b ++ last).drop j →
        j ≤ (textOf ps t).length + 2 + b.length := by
      intro j hj
      rcases List.mem_append.mp (hclose j hj) with h | h
      · have := closeDelimiters_bound ps 0 j h
        omega
      · simp only [List.mem_singleton] at h
        omega
    obtain ⟨ho, he, htake, hdrop, hsub⟩ := pass_wellPaired (textOf ps t) b last hmaxo hmaxc
    have hr1 := hr r (List.mem_cons_self _ _)
    have hnew : textOf ps t ++ placeholder r ++ last = textOf ps (t ++ placeholder r ++ last) := by
      rw [textOf_last_append, textOf_last_append]
    have hopen' : ∀ c, openningSymbol <+: (textOf ps (t ++ placeholder r ++ last)).drop c →
        c ∈ openDelimiters ps 0 := by
      intro c hc
      rw [← hnew] at hc
      have hc' : openningSymbol <+:
          ((textOf ps t ++ fragmentOf b ++ last).take (textOf ps t).length ++ placeholder r ++
            (textOf ps t ++ fragmentOf b ++ last).drop
              (endIndexOf (textOf ps t ++ fragmentOf b ++ last))).drop c := by
        rw [htake, he, hdrop]; exact hc
      rcases openning_after_pass hr1 ho hc' with h | h
      · rcases List.mem_append.mp (hopen c h.2) with h' | h'
        · exact h'
        · simp only [List.mem_singleton] at h'
          omega
      · omega
    have hclose' : ∀ c, closingSymbol <+: (textOf ps (t ++ placeholder r ++ last)).drop c →
        c ∈ closeDelimiters ps 0 := by
      intro c hc
      rw [← hnew] at hc
      have hc' : closingSymbol <+:
          ((textOf ps t ++ fragmentOf b ++ last).take (textOf ps t).length ++ placeholder r ++
            (textOf ps t ++ fragmentOf b ++ last).drop
              (endIndexOf (textOf ps t ++ fragmentOf b ++ last))).drop c := by
        rw [htake, he, hdrop]; exact hc
      have h := closing_after_pass hr1 ho hc'
      rcases List.mem_append.mp (hclose c h.2) with h' | h'
      · exact h'
      · simp only [List.mem_singleton] at h'
        omega
    rw [hT, whileLoop_step _ _ _ _ _ _ ho, htake, he, hdrop, hsub, hnew]
    rw [ih (t ++ placeholder r ++ last) _ rs f hopen' hclose'
      (fun r' hr' => hr r' (List.mem_cons_of_mem _ hr')) (by omega) (by omega)]
    have hk : ((List.take (ps ++ [(t, b)]).length (r :: rs)).map keyOf).reverse
        = ((rs.take ps.length).map keyOf).reverse ++ [keyOf r] := by
      simp
    have hrec : recordsOf (ps ++ [(t, b)]) (r :: rs)
        = (placeholder r, fragmentOf b) :: recordsOf ps rs := by
      simp [recordsOf, placeholder]
    rw [hk, hrec, replacedOf_append _ _ _ _ _ (by simp; omega)]
    simp [placeholder]

/-! ## A text whose last closing symbol ends before its last opening symbol -/

theorem drop_replaced {A P D : JSString} {c : Nat} (h : A.length + P.length ≤ c) :
    (A ++ P ++ D).drop c = D.drop (c - A.length - P.length) := by
  have e : c = (A ++ P).length + (c - A.length - P.length) := by
    rw [List.length_append]; omega
  conv_lhs => rw [e]
  rw [List.drop_append]

theorem endIndexOf_of_some {s : JSString} {i : Nat}
    (h : lastOccurrence closingSymbol s = some i) : endIndexOf s = i + 2 := by
  unfold endIndexOf
  rw [h]

theorem endIndexOf_of_none {s : JSString} (h : lastOccurrence closingSymbol s = none) :
    endIndexOf s = 1 := by
  unfold endIndexOf
  rw [h]

theorem misordered_pass {s : JSString} {a : Nat} {r : JSString} (hr : isRendering r)
    (ha : lastOccurrence openningSymbol s = some a) (he : endIndexOf s ≤ a) :
    ∃ a', lastOccurrence openningSymbol
        (s.take a ++ placeholder r ++ s.drop (endIndexOf s)) = some a' ∧
      a + (placeholder r).length ≤ a' ∧
      endIndexOf (s.take a ++ placeholder r ++ s.drop (endIndexOf s)) ≤ a' := by
  have hb := lastOccurrence_bound ha
  have hl : (s.take a).length = a := by rw [List.length_take]; omega
  have hpos : 0 < (placeholder r).length := List.length_pos.mpr (placeholder_ne_nil r)
  have hocc : openningSymbol <+:
      (s.take a ++ placeholder r ++ s.drop (endIndexOf s)).drop
        (a + (placeholder r).length + (a - endIndexOf s)) := by
    rw [drop_replaced (by rw [hl]; omega), hl, List.drop_drop]
    have e : endIndexOf s + (a + (placeholder r).length + (a - endIndexOf s) - a
        - (placeholder r).length) = a := by omega
    rw [e]
    exact lastOccurrence_occurs ha
  obtain ⟨a', ha', hle⟩ := lastOccurrence_le openningSymbol_ne_nil hocc
  refine ⟨a', ha', by omega, ?_⟩
  cases hc : lastOccurrence closingSymbol
      (s.take a ++ placeholder r ++ s.drop (endIndexOf s)) with
  | none =>
    rw [endIndexOf_of_none hc]
    omega
  | some i =>
    have := (closing_after_pass hr ha (lastOccurrence_occurs hc)).1
    rw [endIndexOf_of_some hc]
    omega

/-- The loop does not end on a text whose last closing symbol ends at or before the start
of its last opening symbol. -/
theorem whileLoop_misordered (fuel : Nat) :
    ∀ (st : State) (a : Nat), (∀ r ∈ st.random, isRendering r) →
      lastOccurrence openningSymbol st.string = some a → endIndexOf st.string ≤ a →
      whileLoop [] fuel st = none := by
  induction fuel with
  | zero => intro st a _ _ _; rfl
  | succ fuel ih =>
    intro st a hr ha he
    obtain ⟨s, t, rs⟩ := st
    cases rs with
    | nil => exact whileLoop_no_supply _ _ _ _ ha
    | cons r rs =>
      rw [whileLoop_step _ _ _ _ _ _ ha]
      obtain ⟨a', ha', _, he'⟩ := misordered_pass (hr r (List.mem_cons_self _ _)) ha he
      exact ih _ a' (fun r' hr' => hr r' (List.mem_cons_of_mem _ hr')) ha' he'

/-! ## Counting occurrences -/

theorem occurrences_eq_zero {pat : JSString} (hp : pat ≠ []) :
    ∀ {s : JSString}, (∀ c, ¬ pat <+: s.drop c) → occurrences pat s = 0 := by
  intro s
  induction s with
  | nil => intro _; simp [occurrences, hp]
  | cons x s ih =>
    intro h
    have h0 : ¬ pat <+: x :: s := h 0
    have hs : ∀ c, ¬ pat <+: s.drop c := fun c => h (c + 1)
    simp only [occurrences, ih hs, Nat.add_zero]
    rw [if_neg]
    intro hpre
    exact h0 (List.isPrefixOf_iff_prefix.mp hpre)

theorem occurrences_eq_one {pat : JSString} (hp : pat ≠ []) :
    ∀ {s : JSString} {c : Nat}, pat <+: s.drop c → (∀ c', pat <+: s.drop c' → c' = c) →
      occurrences pat s = 1 := by
  intro s
  induction s with
  | nil =>
    intro c h _
    simp only [List.drop_nil, List.prefix_nil] at h
    exact absurd h hp
  | cons x s ih =>
    intro c h hu
    cases c with
    | zero =>
      have hs : ∀ c, ¬ pat <+: s.drop c := by
        intro c hc
        have := hu (c + 1) hc
        omega
      simp only [occurrences, occurrences_eq_zero hp hs, Nat.add_zero]
      rw [if_pos]
      exact List.isPrefixOf_iff_prefix.mpr h
    | succ c =>
      have h0 : ¬ pat <+: x :: s := by
        intro h0
        have := hu 0 h0
        omega
      have hs : ∀ c', pat <+: s.drop c' → c' = c := by
        intro c' hc'
        have := hu (c' + 1) hc'
        omega
      simp only [occurrences, ih (c := c) h hs]
      rw [if_neg]
      intro hpre
      exact h0 (List.isPrefixOf_iff_prefix.mp hpre)

/-! ## The units of a token -/

theorem fragmentKey_unit {j : Nat} (hj : 1 ≤ j) : fragmentKey[j]? ≠ some 'F' := by
  by_cases h : j < 8
  · interval_cases j <;> decide
  · rw [List.getElem?_eq_none (by simp [fragmentKey]; omega)]
    exact fun h => Option.noConfusion h

theorem token_unit {k : JSString} (hk : ∀ u ∈ k, u ∈ renderingUnits) {j : Nat} (hj : 1 ≤ j) :
    (fragmentKey ++ k)[j]? ≠ some 'F' := by
  by_cases h : j < fragmentKey.length
  · rw [List.getElem?_append_left h]
    exact fragmentKey_unit hj
  · rw [List.getElem?_append_right (by omega)]
    intro h'
    have := hk _ (List.getElem?_mem h')
    revert this
    decide

theorem prefix_eq_of_length {x y l : JSString} (hx : x <+: l) (hy : y <+: l)
    (h : x.length = y.length) : x = y :=
  (List.prefix_of_prefix_length_le hx hy (le_of_eq h)).eq_of_length h

theorem Table.key_mem_set {t : Table} {k v : JSString} {e : JSString × JSString}
    (h : e ∈ t) : ∃ e' ∈ t.set k v, e'.1 = e.1 := by
  induction t with
  | nil => exact absurd h (List.not_mem_nil e)
  | cons e0 t ih =>
    obtain ⟨k0, v0⟩ := e0
    simp only [Table.set]
    split
    · rcases List.mem_cons.mp h with h | h
      · exact ⟨(k0, v), List.mem_cons_self _ _, by rw [h]⟩
      · exact ⟨e, List.mem_cons_of_mem _ h, rfl⟩
    · rcases List.mem_cons.mp h with h | h
      · exact ⟨(k0, v0), List.mem_cons_self _ _, by rw [h]⟩
      · obtain ⟨e', he', hk'⟩ := ih h
        exact ⟨e', List.mem_cons_of_mem _ he', hk'⟩

theorem Table.mem_set_self (t : Table) (k v : JSString) : (k, v) ∈ t.set k v := by
  induction t with
  | nil => simp [Table.set]
  | cons e0 t ih =>
    obtain ⟨k0, v0⟩ := e0
    simp only [Table.set]
    split
    · rename_i h
      rw [h]
      exact List.mem_cons_self _ _
    · exact List.mem_cons_of_mem _ ih

/-! ## Every token occurs once -/

theorem IsToken.length {len : Nat} {tok : JSString} (h : IsToken len tok) :
    tok.length = 8 + len := by
  obtain ⟨k, rfl, hk, _⟩ := h
  simp [fragmentKey, hk]
  omega

theorem IsToken.fragmentKey_occurs {len : Nat} {tok l : JSString} (h : IsToken len tok)
    (hl : tok <+: l) : fragmentKey <+: l := by
  obtain ⟨k, rfl, _, _⟩ := h
  exact (List.prefix_append _ _).trans hl

theorem isToken_placeholder {len : Nat} {r : JSString} (hr : isRendering r)
    (hL : (keyOf r).length = len) : IsToken len (placeholder r) :=
  ⟨keyOf r, rfl, hL, fun u hu => hr u (mem_keyOf hu)⟩

theorem occurs_middle (A P D : JSString) : P <+: (A ++ P ++ D).drop A.length := by
  rw [List.append_assoc, List.drop_left]
  exact List.prefix_append _ _

theorem once_pass {len : Nat} {s : JSString} {table : Table} {r : JSString}
    {rs : List JSString} {a : Nat} (F : JSString) (hr : isRendering r)
    (hL : (keyOf r).length = len) (ha : lastOccurrence openningSymbol s = some a)
    (hae : a < endIndexOf s) (hnd : placeholder r ∉ rs.map placeholder)
    (hinv : OnceInv len s table (r :: rs)) :
    OnceInv len (s.take a ++ placeholder r ++ s.drop (endIndexOf s))
      (table.set (placeholder r) F) rs := by
  have hb := lastOccurrence_bound ha
  have hl : (s.take a).length = a := by rw [List.length_take]; omega
  have hPtok : IsToken len (placeholder r) := isToken_placeholder hr hL
  have hPlen := hPtok.length
  have hfk_ne : fragmentKey ≠ [] := List.cons_ne_nil _ _
  have hfk_len : fragmentKey.length = 8 := rfl
  have hM1c : ∀ i, closingSymbol <+:
      (s.take a ++ placeholder r ++ s.drop (endIndexOf s)).drop i → i + 2 ≤ a :=
    fun i hi => (closing_after_pass hr ha hi).1
  have hM1o : ∀ o, openningSymbol <+:
      (s.take a ++ placeholder r ++ s.drop (endIndexOf s)).drop o → o + 2 ≤ a := by
    intro o ho
    rcases openning_after_pass hr ha ho with h | h
    · exact h.1
    · omega
  have he_le : ∀ c, fragmentKey <+: s.drop c → endIndexOf s ≤ c ∧ a + 2 ≤ c := by
    intro c hc
    obtain ⟨⟨h1, h2⟩, _⟩ := hinv.1 c hc
    have h3 := h2 a (lastOccurrence_occurs ha)
    refine ⟨?_, h3⟩
    cases hcl : lastOccurrence closingSymbol s with
    | none => rw [endIndexOf_of_none hcl]; omega
    | some i =>
      rw [endIndexOf_of_some hcl]
      exact h1 i (lastOccurrence_occurs hcl)
  have hPocc : placeholder r <+:
      (s.take a ++ placeholder r ++ s.drop (endIndexOf s)).drop a := by
    have h := occurs_middle (s.take a) (placeholder r) (s.drop (endIndexOf s))
    rwa [hl] at h
  have hW : ∀ c, fragmentKey <+:
      (s.take a ++ placeholder r ++ s.drop (endIndexOf s)).drop c →
      c = a ∨ (a + (placeholder r).length ≤ c ∧
        fragmentKey <+: s.drop (endIndexOf s + (c - a - (placeholder r).length))) := by
    intro c hc
    rcases occurs_in_replaced (placeholder_ne_nil r) hfk_ne hc with h | h | h | h
    · exfalso
      obtain ⟨h1, h2⟩ := h
      have := (he_le c (occurs_of_take h2 hfk_ne)).2
      omega
    · exfalso
      obtain ⟨h1, h2, h3⟩ := h
      have hP0 : (placeholder r)[0]? = some 'F' := rfl
      rw [hP0] at h3
      exact fragmentKey_unit (by omega) h3
    · obtain ⟨h1, h2, _, h3⟩ := h
      left
      by_contra hne
      have h0 : fragmentKey[0]? = some 'F' := rfl
      rw [h0] at h3
      exact token_unit (fun u hu => hr u (mem_keyOf hu)) (by omega : 1 ≤ c - (s.take a).length)
        h3.symm
    · right
      obtain ⟨h1, h2⟩ := h
      rw [List.drop_drop, hl] at h2
      rw [hl] at h1
      exact ⟨h1, h2⟩
  have hdrop : ∀ c, a + (placeholder r).length ≤ c →
      (s.take a ++ placeholder r ++ s.drop (endIndexOf s)).drop c
        = s.drop (endIndexOf s + (c - a - (placeholder r).length)) := by
    intro c hc
    rw [drop_replaced (by rw [hl]; exact hc), List.drop_drop, hl]
  refine ⟨?_, ?_⟩
  · intro c hc
    rcases hW c hc with h | h
    · subst h
      exact ⟨⟨hM1c, hM1o⟩, (placeholder r, F), Table.mem_set_self _ _ _, hPocc⟩
    · obtain ⟨h1, h2⟩ := h
      refine ⟨⟨fun i hi => ?_, fun o ho => ?_⟩, ?_⟩
      · have := hM1c i hi; omega
      · have := hM1o o ho; omega
      · obtain ⟨e0, he0, hpre⟩ := (hinv.1 _ h2).2
        obtain ⟨e', he', hk⟩ := Table.key_mem_set (k := placeholder r) (v := F) he0
        refine ⟨e', he', ?_⟩
        rw [hk, hdrop c h1]
        exact hpre
  · intro e' he'
    rcases Table.mem_set he' with h | hmem
    · subst h
      refine ⟨hPtok, hnd, a, hPocc, ?_⟩
      intro c' hc'
      rcases hW c' (hPtok.fragmentKey_occurs hc') with h | h
      · exact h
      · exfalso
        obtain ⟨h1, h2⟩ := h
        rw [hdrop c' h1] at hc'
        obtain ⟨e0, he0, hpre0⟩ := (hinv.1 _ h2).2
        obtain ⟨htok0, hnot0, _⟩ := hinv.2 e0 he0
        have heq : e0.1 = placeholder r :=
          prefix_eq_of_length hpre0 hc' (by rw [htok0.length, hPlen])
        apply hnot0
        rw [heq]
        exact List.mem_map.mpr ⟨r, List.mem_cons_self _ _, rfl⟩
    · obtain ⟨htok, hnotin, p, hp, hpu⟩ := hinv.2 e' hmem
      have hpge := (he_le p (htok.fragmentKey_occurs hp)).1
      refine ⟨htok, ?_, a + (placeholder r).length + (p - endIndexOf s), ?_, ?_⟩
      · intro hin
        apply hnotin
        rw [List.map_cons]
        exact List.mem_cons_of_mem _ hin
      · rw [hdrop _ (by omega)]
        have e : endIndexOf s + (a + (placeholder r).length + (p - endIndexOf s) - a
            - (placeholder r).length) = p := by omega
        rw [e]
        exact hp
      · intro c' hc'
        rcases hW c' (htok.fragmentKey_occurs hc') with h | h
        · exfalso
          subst h
          have heq : e'.1 = placeholder r :=
            prefix_eq_of_length hc' hPocc (by rw [htok.length, hPlen])
          apply hnotin
          rw [heq]
          exact List.mem_map.mpr ⟨r, List.mem_cons_self _ _, rfl⟩
        · obtain ⟨h1, _⟩ := h
          rw [hdrop c' h1] at hc'
          have := hpu _ hc'
          omega

theorem whileLoop_once (len : Nat) (fuel : Nat) :
    ∀ (st st' : State), (∀ r ∈ st.random, isRendering r ∧ (keyOf r).length = len) →
      (st.random.map placeholder).Nodup →
      OnceInv len st.string st.fragmentArray st.random →
      whileLoop [] fuel st = some st' →
      OnceInv len st'.string st'.fragmentArray st'.random := by
  induction fuel with
  | zero => intro st st' _ _ _ h; exact Option.noConfusion h
  | succ fuel ih =>
    intro st st' hr hnd hinv h
    obtain ⟨s, t, rs⟩ := st
    cases ho : lastOccurrence openningSymbol s with
    | none =>
      rw [whileLoop_done _ _ _ ho] at h
      simp only [Option.some.injEq] at h
      subst h
      exact hinv
    | some a =>
      by_cases hae : a < endIndexOf s
      · cases rs with
        | nil =>
          rw [whileLoop_no_supply _ _ _ _ ho] at h
          exact Option.noConfusion h
        | cons r rs =>
          rw [whileLoop_step _ _ _ _ _ _ ho] at h
          have hr1 := hr r (List.mem_cons_self _ _)
          simp only [List.map_cons, List.nodup_cons] at hnd
          exact ih _ st' (fun r' hr' => hr r' (List.mem_cons_of_mem _ hr')) hnd.2
            (once_pass _ hr1.1 hr1.2 ho hae hnd.1 hinv) h
      · rw [whileLoop_misordered (fuel + 1) ⟨s, t, rs⟩ a (fun r hr' => (hr r hr').1) ho
          (Nat.le_of_not_lt hae)] at h
        exact Option.noConfusion h

/-! ## The claim on the tokens of the returned text -/

/-- C9, as amended: for every text that does not contain `FRAGMENT` and on which
`replaceIndentationWithFragmentKey` returns, started from an empty table, every token
recorded in the table occurs exactly once in the returned text, when the keys cut from the
random values are pairwise distinct and all of one length. -/
theorem token_occurs_once (fuel len : Nat) (string : JSString) (random : List JSString)
    (st : State) (hfree : ¬ fragmentKey <:+: string) (hr : ∀ r ∈ random, isRendering r)
    (hlen : ∀ r ∈ random, (keyOf r).length = len) (hdistinct : (random.map keyOf).Nodup)
    (h : replaceIndentationWithFragmentKey fuel ⟨string, [], random⟩ = some st) :
    ∀ e ∈ st.fragmentArray, occurrences e.1 st.string = 1 := by
  have hnd : (random.map placeholder).Nodup := by
    have := hdistinct.map (List.append_right_injective fragmentKey)
    rwa [List.map_map] at this
  have hinit : OnceInv len string [] random :=
    ⟨fun c hc => absurd (infix_iff_occurs.mpr ⟨c, hc⟩) hfree,
      fun e he => absurd he (List.not_mem_nil e)⟩
  have hfin := whileLoop_once len fuel ⟨string, [], random⟩ st
    (fun r hr' => ⟨hr r hr', hlen r hr'⟩) hnd hinit h
  intro e he
  obtain ⟨htok, _, c, hc, hu⟩ := hfin.2 e he
  have hne : e.1 ≠ [] := by
    intro h0
    have := htok.length
    rw [h0] at this
    simp only [List.length_nil] at this
    omega
  exact occurrences_eq_one hne hc hu

/-- C9, as amended, at the text `A{%1%}B{%2%}C` with the random values 0.0078125 and
0.0234375: each of the two tokens recorded occurs once in the returned text. -/
theorem token_occurs_once_witness :
    occurrences (str "FRAGMENT0078125") (str "AFRAGMENT0234375BFRAGMENT0078125C") = 1 ∧
      occurrences (str "FRAGMENT0234375") (str "AFRAGMENT0234375BFRAGMENT0078125C") = 1 :=
  have h := token_occurs_once 3 7 (str "A\x7b%1%\x7dB\x7b%2%\x7dC")
    [str "0.0078125", str "0.0234375"]
    ⟨str "AFRAGMENT0234375BFRAGMENT0078125C",
      [(str "FRAGMENT0078125", str "\x7b%2%\x7d"), (str "FRAGMENT0234375", str "\x7b%1%\x7d")], []⟩
    (by decide) (by decide) (by decide) (by decide) (by decide)
  ⟨h (str "FRAGMENT0078125", str "\x7b%2%\x7d") (List.mem_cons_self _ _),
    h (str "FRAGMENT0234375", str "\x7b%1%\x7d")
      (List.mem_cons_of_mem _ (List.mem_cons_self _ _))⟩

/-! ## Reading the table after a sequence of writes -/

theorem get_foldl_set_of_not_mem (recs : List (JSString × JSString)) :
    ∀ (table : Table) (k : JSString), k ∉ recs.map Prod.fst →
      (recs.foldl (fun t e => t.set e.1 e.2) table).get k = table.get k := by
  induction recs with
  | nil => intro table k _; rfl
  | cons e recs ih =>
    intro table k hk
    simp only [List.map_cons, List.mem_cons, not_or] at hk
    rw [List.foldl_cons, ih _ _ hk.2, Table.get_set, if_neg (fun h => hk.1 h.symm)]

theorem get_foldl_set_of_mem (recs : List (JSString × JSString)) :
    ∀ (table : Table), (recs.map Prod.fst).Nodup → ∀ e ∈ recs,
      (recs.foldl (fun t e => t.set e.1 e.2) table).get e.1 = some e.2 := by
  induction recs with
  | nil => intro table _ e he; exact absurd he (List.not_mem_nil e)
  | cons e0 recs ih =>
    intro table hnd e he
    simp only [List.map_cons, List.nodup_cons] at hnd
    rw [List.foldl_cons]
    rcases List.mem_cons.mp he with h | h
    · subst h
      rw [get_foldl_set_of_not_mem _ _ _ hnd.1, Table.get_set_self]
    · exact ih _ hnd.2 e h

theorem recordsOf_keys (pieces : List (JSString × JSString)) (random : List JSString)
    (h : pieces.length ≤ random.length) :
    (recordsOf pieces random).map Prod.fst
      = (random.take pieces.length).map (fun r => fragmentKey ++ keyOf r) := by
  unfold recordsOf
  apply List.map_fst_zip
  simp only [List.length_map, List.length_take, List.length_reverse]
  omega

/-! ## Well-paired texts: what the loop returns, and the claim on the text recorded -/

/-- What the loop does on a well-paired text: let `T = T0 F1 T1 ... Fn Tn` be a text in
which `{%` and `%}` occur only as the opening and the closing delimiter of the fragments
`Fi`. With fuel for more than `n` passes and at least `n` random values,
`replaceIndentationWithFragmentKey` returns `T0 P1 T1 ... Pn Tn`, where `Pi` is `'FRAGMENT'`
followed by the `(n+1-i)`-th generated key: the rightmost fragment is replaced first and
gets the first key. The writes to the table are `table[Pn] = Fn`, ..., `table[P1] = F1` in
this order, each fragment with both its markers, and `n` random values are used; when the
`n` keys are pairwise distinct, the table returned holds `Fi` under `Pi` for every `i`. -/
theorem fragments_replaced_from_the_right (pieces : List (JSString × JSString))
    (last : JSString) (table : Table) (random : List JSString) (fuel : Nat)
    (hopen : ∀ c, openningSymbol <+: (textOf pieces last).drop c → c ∈ openDelimiters pieces 0)
    (hclose : ∀ c, closingSymbol <+: (textOf pieces last).drop c → c ∈ closeDelimiters pieces 0)
    (hr : ∀ r ∈ random, isRendering r) (hsupply : pieces.length ≤ random.length)
    (hfuel : pieces.length < fuel) :
    replaceIndentationWithFragmentKey fuel ⟨textOf pieces last, table, random⟩ =
        some ⟨replacedOf pieces ((random.take pieces.length).map keyOf).reverse last,
          (recordsOf pieces random).foldl (fun t e => t.set e.1 e.2) table,
          random.drop pieces.length⟩ ∧
      (((random.take pieces.length).map keyOf).Nodup →
        ∀ e ∈ recordsOf pieces random,
          ((recordsOf pieces random).foldl (fun t e => t.set e.1 e.2) table).get e.1
            = some e.2) := by
  refine ⟨whileLoop_wellPaired pieces last table random fuel hopen hclose hr hsupply hfuel, ?_⟩
  intro hnd
  apply get_foldl_set_of_mem
  rw [recordsOf_keys pieces random hsupply]
  have := hnd.map (List.append_right_injective fragmentKey)
  rwa [List.map_map] at this

/-- The loop on the well-paired text `A{%1%}B{%2%}C` with the random values 0.0078125 and
0.0234375. -/
theorem fragments_replaced_from_the_right_witness :
    replaceIndentationWithFragmentKey 3
        ⟨textOf [(str "A", str "1"), (str "B", str "2")] (str "C"), [],
          [str "0.0078125", str "0.0234375"]⟩ =
      some ⟨str "AFRAGMENT0234375BFRAGMENT0078125C",
        [(str "FRAGMENT0078125", str "\x7b%2%\x7d"), (str "FRAGMENT0234375", str "\x7b%1%\x7d")],
        []⟩ :=
  (fragments_replaced_from_the_right [(str "A", str "1"), (str "B", str "2")] (str "C") []
    [str "0.0078125", str "0.0234375"] 3
    (by
      intro c hc
      have hb := occurs_bound openningSymbol_ne_nil hc
      have hc3 : c < 12 := by
        have : (textOf [(str "A", str "1"), (str "B", str "2")] (str "C")).length = 13 := by
          decide
        rw [this] at hb
        simp only [openningSymbol, List.length_cons, List.length_nil] at hb
        omega
      interval_cases c <;> revert hc <;> decide)
    (by
      intro c hc
      have hb := occurs_bound closingSymbol_ne_nil hc
      have hc3 : c < 12 := by
        have : (textOf [(str "A", str "1"), (str "B", str "2")] (str "C")).length = 13 := by
          decide
        rw [this] at hb
        simp only [closingSymbol, List.length_cons, List.length_nil] at hb
        omega
      interval_cases c <;> revert hc <;> decide)
    (by decide) (by decide) (by decide)).1.trans (by decide)

/-- C2 at a failing input: on `A{%1%}B{%2%}C` with the random value 0.0078125 delivered
twice the text returned is `AFRAGMENT0078125BFRAGMENT0078125C`, the two fragments replaced
from the right as the claim says, but the table returned has the single entry
`FRAGMENT0078125 -> {%1%}`: the text recorded for the placeholder of `F2 = {%2%}` is
`{%1%}`, and `{%2%}` is the text of no entry. -/
theorem fragment_of_colliding_key_is_not_recorded :
    ∃ st, replaceIndentationWithFragmentKey 3
        ⟨textOf [(str "A", str "1"), (str "B", str "2")] (str "C"), [],
          [str "0.0078125", str "0.0078125"]⟩ = some st ∧
      st.string = replacedOf [(str "A", str "1"), (str "B", str "2")]
        [keyOf (str "0.0078125"), keyOf (str "0.0078125")] (str "C") ∧
      st.string = str "AFRAGMENT0078125BFRAGMENT0078125C" ∧
      st.fragmentArray = [(str "FRAGMENT0078125", str "\x7b%1%\x7d")] ∧
      st.fragmentArray.get (fragmentKey ++ keyOf (str "0.0078125"))
        ≠ some (fragmentOf (str "2")) ∧
      ∀ e ∈ st.fragmentArray, e.2 ≠ fragmentOf (str "2") :=
  ⟨⟨str "AFRAGMENT0078125BFRAGMENT0078125C",
      [(str "FRAGMENT0078125", str "\x7b%1%\x7d")], []⟩,
    by decide, by decide, by decide, by decide, by decide, by decide⟩

/-! ## The claims on restoring without a match, on texts without an opening marker, and on
the span taken when a marker is missing or out of place -/

theorem replaceOriginalFragment_append (t1 t2 : Table) (text : JSString) :
    replaceOriginalFragment (t1 ++ t2) text
      = replaceOriginalFragment t2 (replaceOriginalFragment t1 text) := by
  simp [replaceOriginalFragment, List.foldl_append]

theorem replaceOriginalFragment_cons (key frag : JSString) (t : Table) (text : JSString) :
    replaceOriginalFragment ((key, frag) :: t) text
      = replaceOriginalFragment t (replace text key frag) := rfl

/-- C11, counterexample: the key `FRAGMENT0078125` does not occur in the text `abc`, and
`replaceOriginalFragment` with the table `FRAGMENT0078125 -> {%a%}` returns the text `abc`:
a text is returned although an entry was not matched. -/
theorem unmatched_key_returns_text :
    ¬ (str "FRAGMENT0078125") <:+: (str "abc") ∧
      replaceOriginalFragment [(str "FRAGMENT0078125", str "\x7b%a%\x7d")] (str "abc")
        = str "abc" := by
  decide

/-- C11, as amended: `replaceOriginalFragment` raises no error and returns a text for every
text and every table. An entry whose key does not occur in the text at the moment the entry
is processed leaves that text as it is, and the entries after it are processed on it. -/
theorem unmatched_entry_is_skipped (earlier later : Table) (key frag text : JSString)
    (h : ¬ key <:+: replaceOriginalFragment earlier text) :
    replaceOriginalFragment (earlier ++ (key, frag) :: later) text
      = replaceOriginalFragment later (replaceOriginalFragment earlier text) := by
  rw [replaceOriginalFragment_append, replaceOriginalFragment_cons, replace_of_not_infix h]

/-- C11, as amended, at the text `xFRAGMENT1y` and the table `FRAGMENT1 -> a`,
`FRAGMENT2 -> b`, `x -> z`: the second entry is not matched, the third one is. -/
theorem unmatched_entry_is_skipped_witness :
    replaceOriginalFragment
        ([(str "FRAGMENT1", str "a")] ++ (str "FRAGMENT2", str "b") :: [(str "x", str "z")])
        (str "xFRAGMENT1y")
      = replaceOriginalFragment [(str "x", str "z")]
          (replaceOriginalFragment [(str "FRAGMENT1", str "a")] (str "xFRAGMENT1y")) :=
  unmatched_entry_is_skipped [(str "FRAGMENT1", str "a")] [(str "x", str "z")] (str "FRAGMENT2")
    (str "b") (str "xFRAGMENT1y") (by decide)

/-- C12: for every text without an occurrence of the opening marker `{%`, whether it has
closing markers or not, `replaceIndentationWithFragmentKey` returns the text unchanged; the
table and the supply of random values are as before, so no key is generated and no entry
added. -/
theorem text_without_opening_is_returned (fuel : Nat) (s : JSString) (table : Table)
    (random : List JSString) (h : ¬ openningSymbol <:+: s) :
    replaceIndentationWithFragmentKey (fuel + 1) ⟨s, table, random⟩
      = some ⟨s, table, random⟩ := by
  have hn : lastOccurrence openningSymbol s = none := by
    cases ho : lastOccurrence openningSymbol s with
    | none => rfl
    | some a => exact absurd (infix_iff_occurs.mpr ⟨a, lastOccurrence_occurs ho⟩) h
  exact whileLoop_done [] fuel ⟨s, table, random⟩ hn

/-- C12 at the text `a%}b`, which has a closing marker, with the table `k -> v` and an
empty supply of random values. -/
theorem text_without_opening_is_returned_witness :
    replaceIndentationWithFragmentKey (0 + 1) ⟨str "a%\x7db", [(str "k", str "v")], []⟩
      = some ⟨str "a%\x7db", [(str "k", str "v")], []⟩ :=
  text_without_opening_is_returned 0 (str "a%\x7db") [(str "k", str "v")] [] (by decide)

/-- C13: for every text, `replaceOriginalFragment` with an empty table returns the text
unchanged; applied twice it gives what it gives applied once, the text itself. -/
theorem replaceOriginalFragment_empty_table (text : JSString) :
    replaceOriginalFragment [] text = text ∧
      replaceOriginalFragment [] (replaceOriginalFragment [] text)
        = replaceOriginalFragment [] text ∧
      replaceOriginalFragment [] (replaceOriginalFragment [] text) = text :=
  ⟨rfl, rfl, rfl⟩

theorem not_openning_twice {s : JSString} {o : Nat} (h1 : openningSymbol <+: s.drop o)
    (h2 : openningSymbol <+: s.drop (o + 1)) : False := by
  rw [occurs_iff] at h1 h2
  have a := h1 1 (by decide)
  have b := h2 0 (by decide)
  rw [Nat.add_zero] at b
  rw [a] at b
  revert b
  decide

/-- C16: for every text that contains an opening marker and no closing marker, `endIndex` is
`closing.length - 1 = 1` and the span recorded for the generated token is
`text.substring(startIndex, 1)`. With the last opening marker at index `0` this is the single
unit `{`, which is not the text from the marker on; with `startIndex >= 1` it is the units
from index `1` up to, not including, `startIndex`: the text before the opening marker
without its first unit, and so not the text from the opening marker on. -/
theorem span_without_closing_marker (s : JSString) (t : Table) (r : JSString)
    (rs : List JSString) (hopen : openningSymbol <:+: s) (hclose : ¬ closingSymbol <:+: s) :
    ∃ a : Nat, lastIndexOf s openningSymbol = (a : Int) ∧
      lastIndexOf s closingSymbol + closingLength = closingLength - 1 ∧
      lastIndexOf s closingSymbol + closingLength = 1 ∧
      (∃ st, loopBody [] ⟨s, t, r :: rs⟩ = some st ∧
        st.fragmentArray = t.set (fragmentKey ++ keyOf r) (substring s a 1)) ∧
      (a = 0 → substring s a 1 = ['{'] ∧ substring s a 1 ≠ substringFrom s a) ∧
      (1 ≤ a → substring s a 1 = (s.drop 1).take (a - 1) ∧
        s.take 1 ++ substring s a 1 = s.take a ∧
        s.take 1 ++ substring s a 1 ++ substringFrom s a = s) := by
  obtain ⟨c, hc⟩ := infix_iff_occurs.mp hopen
  obtain ⟨a, ha, _⟩ := lastOccurrence_le openningSymbol_ne_nil hc
  have hn : lastOccurrence closingSymbol s = none := by
    cases h : lastOccurrence closingSymbol s with
    | none => rfl
    | some i => exact absurd (infix_iff_occurs.mpr ⟨i, lastOccurrence_occurs h⟩) hclose
  have he : endIndexOf s = 1 := endIndexOf_of_none hn
  have hbody := loopBody_eq s t r rs a ha
  rw [he] at hbody
  have hb := lastOccurrence_bound ha
  have hlen : a + 2 ≤ s.length := hb
  have hsub : substring s (a : Int) 1 = (s.drop (min a 1)).take (max a 1 - min a 1) := by
    have h := substring_nat s a 1
    rw [Nat.cast_one] at h
    exact h
  refine ⟨a, lastIndexOf_of_some ha, ?_, ?_, ⟨_, hbody, rfl⟩, ?_, ?_⟩
  · rw [endIndex_eq, he]; rfl
  · rw [endIndex_eq, he]; rfl
  · intro ha0
    subst ha0
    have h1 : substring s ((0 : Nat) : Int) 1 = ['{'] := by
      rw [hsub]
      show (s.drop 0).take 1 = ['{']
      obtain ⟨Z, hZ⟩ := lastOccurrence_occurs ha
      simp only [List.drop_zero] at hZ
      rw [← hZ]
      rfl
    refine ⟨h1, ?_⟩
    rw [h1, substringFrom_nat]
    intro h
    have := congrArg List.length h
    simp only [List.length_cons, List.length_nil, List.drop_zero] at this
    omega
  · intro ha1
    have h1 : substring s (a : Int) 1 = (s.drop 1).take (a - 1) := by
      rw [hsub, Nat.min_eq_right ha1, Nat.max_eq_left ha1]
    have h2 : s.take 1 ++ (s.drop 1).take (a - 1) = s.take a := by
      have := List.take_add s 1 (a - 1)
      rw [show 1 + (a - 1) = a by omega] at this
      exact this.symm
    refine ⟨h1, by rw [h1, h2], ?_⟩
    rw [h1, h2, substringFrom_nat, List.take_append_drop]

/-- C16 at the texts `{%a` (opening marker at index `0`) and `ab{%c` (at index `2`). -/
theorem span_without_closing_marker_witness :
    (∃ a : Nat, lastIndexOf (str "\x7b%a") openningSymbol = (a : Int) ∧
      lastIndexOf (str "\x7b%a") closingSymbol + closingLength = closingLength - 1 ∧
      lastIndexOf (str "\x7b%a") closingSymbol + closingLength = 1 ∧
      (∃ st, loopBody [] ⟨str "\x7b%a", [], [str "0.0078125"]⟩ = some st ∧
        st.fragmentArray = Table.set [] (fragmentKey ++ keyOf (str "0.0078125"))
          (substring (str "\x7b%a") a 1)) ∧
      (a = 0 → substring (str "\x7b%a") a 1 = ['{'] ∧
        substring (str "\x7b%a") a 1 ≠ substringFrom (str "\x7b%a") a) ∧
      (1 ≤ a → substring (str "\x7b%a") a 1 = ((str "\x7b%a").drop 1).take (a - 1) ∧
        (str "\x7b%a").take 1 ++ substring (str "\x7b%a") a 1 = (str "\x7b%a").take a ∧
        (str "\x7b%a").take 1 ++ substring (str "\x7b%a") a 1 ++ substringFrom (str "\x7b%a") a
          = str "\x7b%a")) ∧
    substring (str "ab\x7b%c") (lastIndexOf (str "ab\x7b%c") openningSymbol)
        (lastIndexOf (str "ab\x7b%c") closingSymbol + closingLength) = str "b" :=
  ⟨span_without_closing_marker (str "\x7b%a") [] (str "0.0078125") [] ⟨[], str "a", by decide⟩
      (by decide),
    by decide⟩

/-- C17: on the text `{%a%} .b{width:50%}`, a fragment `{%a%}` followed later by a stray
`%}`, the span that `replaceIndentationWithFragmentKey` records and replaces runs from the
last opening marker (index `0`) to the end of the last closing marker of the whole text
(index `19`): it is the whole text, has two closing markers in it, and takes the text
` .b{width:50%}` outside the fragment with it. -/
theorem span_crosses_fragment_boundary :
    lastIndexOf (str "\x7b%a%\x7d .b\x7bwidth:50%\x7d") openningSymbol = 0 ∧
      lastIndexOf (str "\x7b%a%\x7d .b\x7bwidth:50%\x7d") closingSymbol + closingLength = 19 ∧
      replaceIndentationWithFragmentKey 2
          ⟨str "\x7b%a%\x7d .b\x7bwidth:50%\x7d", [], [str "0.0078125"]⟩
        = some ⟨str "FRAGMENT0078125",
            [(str "FRAGMENT0078125", str "\x7b%a%\x7d .b\x7bwidth:50%\x7d")], []⟩ ∧
      occurrences closingSymbol (str "\x7b%a%\x7d .b\x7bwidth:50%\x7d") = 2 ∧
      str "\x7b%a%\x7d .b\x7bwidth:50%\x7d" = fragmentOf (str "a") ++ str " .b\x7bwidth:50%\x7d" := by
  decide

theorem misordered_of_lastIndexOf {s : JSString}
    (h : lastIndexOf s closingSymbol + closingLength ≤ lastIndexOf s openningSymbol) :
    ∃ a, lastOccurrence openningSymbol s = some a ∧ endIndexOf s ≤ a := by
  rw [endIndex_eq] at h
  cases ho : lastOccurrence openningSymbol s with
  | none =>
    rw [lastIndexOf_of_none ho] at h
    have := endIndexOf_pos s
    omega
  | some a =>
    rw [lastIndexOf_of_some ho] at h
    exact ⟨a, rfl, by omega⟩

/-- C19: let the computed `endIndex` of a text (the index of its last `%}` plus 2, or 1 when
there is none) be at most the index of its last `{%`. Then a pass of the loop yields a text
that still ends with the old text from that opening marker on, for which again `endIndex` is
at most the index of the last `{%`, and which is longer by at least the length of the
inserted placeholder; and `replaceIndentationWithFragmentKey` does not return on the text,
whatever the fuel, the table and the random values. -/
theorem misordered_text_makes_no_progress (s : JSString) (t : Table) (r : JSString)
    (rs : List JSString) (hr : isRendering r)
    (h : lastIndexOf s closingSymbol + closingLength ≤ lastIndexOf s openningSymbol) :
    (∃ a : Nat, ∃ st, lastIndexOf s openningSymbol = (a : Int) ∧
      loopBody [] ⟨s, t, r :: rs⟩ = some st ∧
      openningSymbol <+: s.drop a ∧ s.drop a <:+ st.string ∧
      lastIndexOf st.string closingSymbol + closingLength
        ≤ lastIndexOf st.string openningSymbol ∧
      s.length + (fragmentKey ++ keyOf r).length ≤ st.string.length) ∧
    ∀ (fuel : Nat) (table : Table) (random : List JSString),
      (∀ r' ∈ random, isRendering r') →
      replaceIndentationWithFragmentKey fuel ⟨s, table, random⟩ = none := by
  obtain ⟨a, ha, he⟩ := misordered_of_lastIndexOf h
  obtain ⟨a', ha', _, he'⟩ := misordered_pass hr ha he
  have hb := lastOccurrence_bound ha
  have hbl : a + 2 ≤ s.length := hb
  refine ⟨⟨a, _, lastIndexOf_of_some ha, loopBody_eq s t r rs a ha, lastOccurrence_occurs ha,
    ?_, ?_, ?_⟩, ?_⟩
  · have h1 : s.drop a <:+ s.drop (endIndexOf s) := by
      have := List.drop_suffix (a - endIndexOf s) (s.drop (endIndexOf s))
      rw [List.drop_drop, show endIndexOf s + (a - endIndexOf s) = a by omega] at this
      exact this
    exact h1.trans (List.suffix_append _ _)
  · show lastIndexOf (s.take a ++ placeholder r ++ s.drop (endIndexOf s)) closingSymbol
        + closingLength
      ≤ lastIndexOf (s.take a ++ placeholder r ++ s.drop (endIndexOf s)) openningSymbol
    rw [endIndex_eq, lastIndexOf_of_some ha']
    exact_mod_cast he'
  · show s.length + (fragmentKey ++ keyOf r).length
      ≤ (s.take a ++ placeholder r ++ s.drop (endIndexOf s)).length
    simp only [List.length_append, List.length_take, List.length_drop, placeholder]
    omega
  · intro fuel table random hrand
    exact whileLoop_misordered fuel ⟨s, table, random⟩ a hrand ha he

/-- C19 at the texts `%}{%` and `a{%b` with the random value 0.0078125. -/
theorem misordered_text_makes_no_progress_witness :
    ((∃ a : Nat, ∃ st, lastIndexOf (str "%\x7d\x7b%") openningSymbol = (a : Int) ∧
        loopBody [] ⟨str "%\x7d\x7b%", [], [str "0.0078125"]⟩ = some st ∧
        openningSymbol <+: (str "%\x7d\x7b%").drop a ∧ (str "%\x7d\x7b%").drop a <:+ st.string ∧
        lastIndexOf st.string closingSymbol + closingLength
          ≤ lastIndexOf st.string openningSymbol ∧
        (str "%\x7d\x7b%").length + (fragmentKey ++ keyOf (str "0.0078125")).length
          ≤ st.string.length) ∧
      ∀ (fuel : Nat) (table : Table) (random : List JSString),
        (∀ r' ∈ random, isRendering r') →
        replaceIndentationWithFragmentKey fuel ⟨str "%\x7d\x7b%", table, random⟩ = none) ∧
    replaceIndentationWithFragmentKey 5 ⟨str "a\x7b%b", [], [str "0.0078125", str "0.0234375"]⟩
      = none :=
  ⟨misordered_text_makes_no_progress (str "%\x7d\x7b%") [] (str "0.0078125") [] (by decide)
      (by decide),
    (misordered_text_makes_no_progress (str "a\x7b%b") [] (str "0.0078125") [] (by decide)
      (by decide)).2 5 [] [str "0.0078125", str "0.0234375"] (by decide)⟩

/-! ## The claim on the transform streams -/

/-- On a file in stream mode `_transform` gives an error to the callback, in both
directions, and leaves the file and the table as they are; on a Buffer
`TransformBackToFragment` gives `callback(null, file)` with the contents set to
`replaceOriginalFragment` of the old contents. -/
theorem transform_of_stream_and_buffer (fuel : Nat) (fragmentArray : Table)
    (random : List JSString) (text : JSString) :
    TransformToFragmentKeys_transform fuel ⟨Contents.stream⟩ fragmentArray random
        = some ⟨Ending.called (CallbackArguments.error streamErrorToFragmentKeys),
            ⟨Contents.stream⟩, fragmentArray, random⟩ ∧
      TransformBackToFragment_transform ⟨Contents.stream⟩ fragmentArray random
        = ⟨Ending.called (CallbackArguments.error streamErrorBackToFragment),
            ⟨Contents.stream⟩, fragmentArray, random⟩ ∧
      TransformBackToFragment_transform ⟨Contents.buffer text⟩ fragmentArray random
        = ⟨Ending.called (CallbackArguments.data
              ⟨Contents.buffer (replaceOriginalFragment fragmentArray text)⟩),
            ⟨Contents.buffer (replaceOriginalFragment fragmentArray text)⟩,
            fragmentArray, random⟩ :=
  ⟨rfl, rfl, rfl⟩

/-- On a Buffer whose text has its last closing symbol end at or before the start of its
last opening symbol, `_transform` of `TransformToFragmentKeys` does not get to the callback,
whatever the fuel, the table and the random values. -/
theorem transform_of_misordered_text (fuel : Nat) (text : JSString) (a : Nat)
    (fragmentArray : Table) (random : List JSString) (hr : ∀ r ∈ random, isRendering r)
    (ha : lastOccurrence openningSymbol text = some a) (he : endIndexOf text ≤ a) :
    TransformToFragmentKeys_transform fuel ⟨Contents.buffer text⟩ fragmentArray random
      = none := by
  have h : replaceIndentationWithFragmentKey fuel ⟨text, fragmentArray, random⟩ = none :=
    whileLoop_misordered fuel ⟨text, fragmentArray, random⟩ a hr ha he
  simp only [TransformToFragmentKeys_transform, File.isStream, Contents.toString, h]
  rfl

/-- C14 at failing inputs: a vinyl file with the contents `null` is not in stream mode, and
in both directions `_transform` ends on it with a TypeError, without a call of `callback`
and with the contents still `null`. The file with the contents `a{%b` is not in stream mode
either, and `_transform` of `TransformToFragmentKeys` has not got to `callback` on it after
five passes of the loop. -/
theorem transform_of_null_contents :
    File.isStream ⟨Contents.null⟩ = false ∧
      TransformToFragmentKeys_transform 2 ⟨Contents.null⟩ [] [str "0.0078125"]
        = some ⟨Ending.typeError, ⟨Contents.null⟩, [], [str "0.0078125"]⟩ ∧
      TransformBackToFragment_transform ⟨Contents.null⟩
          [(str "FRAGMENT0078125", str "\x7b%a%\x7d")] []
        = ⟨Ending.typeError, ⟨Contents.null⟩,
            [(str "FRAGMENT0078125", str "\x7b%a%\x7d")], []⟩ ∧
      File.isStream ⟨Contents.buffer (str "a\x7b%b")⟩ = false ∧
      TransformToFragmentKeys_transform 6 ⟨Contents.buffer (str "a\x7b%b")⟩ []
          [str "0.0078125", str "0.0234375", str "0.0390625", str "0.0546875",
            str "0.0703125", str "0.0859375"]
        = none :=
  ⟨by decide, by decide, by decide, by decide,
    transform_of_misordered_text 6 (str "a\x7b%b") 1 []
      [str "0.0078125", str "0.0234375", str "0.0390625", str "0.0546875",
        str "0.0703125", str "0.0859375"]
      (by decide) (by decide) (by decide)⟩

/-! ## One opening symbol less with every pass -/

theorem occurrences_pos {pat : JSString} (hp : pat ≠ []) :
    ∀ {s : JSString} {c : Nat}, pat <+: s.drop c → 0 < occurrences pat s := by
  intro s
  induction s with
  | nil =>
    intro c h
    simp only [List.drop_nil, List.prefix_nil] at h
    exact absurd h hp
  | cons x s ih =>
    intro c h
    cases c with
    | zero =>
      simp only [List.drop_zero] at h
      simp only [occurrences, List.isPrefixOf_iff_prefix.mpr h, if_true]
      omega
    | succ c =>
      simp only [List.drop_succ_cons] at h
      have := ih h
      simp only [occurrences]
      omega

theorem occurrences_inside (pat X : JSString) (hp : pat ≠ []) :
    ∀ (A : JSString), (∀ o, pat <+: (A ++ X).drop o → o + pat.length ≤ A.length) →
      occurrences pat (A ++ X) = occurrences pat A := by
  intro A
  induction A with
  | nil =>
    intro h
    have hpl : 0 < pat.length := List.length_pos.mpr hp
    have h0 : occurrences pat X = 0 := by
      apply occurrences_eq_zero hp
      intro c hc
      have := h c hc
      simp only [List.length_nil] at this
      omega
    simp [h0, occurrences, hp]
  | cons x A ih =>
    intro h
    have hs : ∀ o, pat <+: (A ++ X).drop o → o + pat.length ≤ A.length := by
      intro o ho
      have := h (o + 1) ho
      simp only [List.length_cons] at this
      omega
    have hiff : pat.isPrefixOf (x :: (A ++ X)) = pat.isPrefixOf (x :: A) := by
      rw [Bool.eq_iff_iff, List.isPrefixOf_iff_prefix, List.isPrefixOf_iff_prefix]
      constructor
      · intro h0
        have hl := h 0 h0
        exact List.prefix_of_prefix_length_le h0 (List.prefix_append (x :: A) X) (by omega)
      · intro h0
        exact h0.trans (List.prefix_append (x :: A) X)
    show occurrences pat (x :: (A ++ X)) = occurrences pat (x :: A)
    simp only [occurrences]
    rw [ih hs, hiff]

theorem occurrences_last (pat Y : JSString) (hp : pat ≠ []) (hY : pat <+: Y) :
    ∀ (A : JSString),
      (∀ o, pat <+: (A ++ Y).drop o → o + pat.length ≤ A.length ∨ o = A.length) →
      occurrences pat (A ++ Y) = occurrences pat A + 1 := by
  intro A
  induction A with
  | nil =>
    intro h
    have h1 : occurrences pat Y = 1 := by
      apply occurrences_eq_one hp (c := 0) hY
      intro c hc
      have hpl : 0 < pat.length := List.length_pos.mpr hp
      rcases h c hc with h' | h'
      · simp only [List.length_nil] at h'
        omega
      · exact h'
    simp [h1, occurrences, hp]
  | cons x A ih =>
    intro h
    have hs : ∀ o, pat <+: (A ++ Y).drop o → o + pat.length ≤ A.length ∨ o = A.length := by
      intro o ho
      have := h (o + 1) ho
      simp only [List.length_cons] at this
      omega
    have hiff : pat.isPrefixOf (x :: (A ++ Y)) = pat.isPrefixOf (x :: A) := by
      rw [Bool.eq_iff_iff, List.isPrefixOf_iff_prefix, List.isPrefixOf_iff_prefix]
      constructor
      · intro h0
        have hl := h 0 h0
        simp only [List.length_cons] at hl
        exact List.prefix_of_prefix_length_le h0 (List.prefix_append (x :: A) Y)
          (by simp only [List.length_cons]; omega)
      · intro h0
        exact h0.trans (List.prefix_append (x :: A) Y)
    show occurrences pat (x :: (A ++ Y)) = occurrences pat (x :: A) + 1
    simp only [occurrences]
    rw [ih hs, hiff]
    omega

theorem pass_count {s : JSString} {a : Nat} {r : JSString} (hr : isRendering r)
    (ha : lastOccurrence openningSymbol s = some a) (hae : a < endIndexOf s) :
    occurrences openningSymbol (s.take a ++ placeholder r ++ s.drop (endIndexOf s)) + 1
      = occurrences openningSymbol s := by
  have hb := lastOccurrence_bound ha
  have hbl : a + 2 ≤ s.length := hb
  have hl : (s.take a).length = a := by rw [List.length_take]; omega
  have h1 : occurrences openningSymbol (s.take a ++ placeholder r ++ s.drop (endIndexOf s))
      = occurrences openningSymbol (s.take a) := by
    rw [List.append_assoc]
    apply occurrences_inside _ _ openningSymbol_ne_nil
    intro o ho
    rw [← List.append_assoc] at ho
    rw [hl]
    rcases openning_after_pass hr ha ho with h | h
    · exact h.1
    · omega
  have h2 : occurrences openningSymbol s = occurrences openningSymbol (s.take a) + 1 := by
    conv_lhs => rw [← List.take_append_drop a s]
    apply occurrences_last _ _ openningSymbol_ne_nil (lastOccurrence_occurs ha)
    intro o ho
    rw [List.take_append_drop] at ho
    rw [hl]
    obtain ⟨k, hk, hok⟩ := lastOccurrence_le openningSymbol_ne_nil ho
    have hk' : lastOccurrence openningSymbol s = some k := hk
    rw [ha] at hk'
    simp only [Option.some.injEq] at hk'
    subst hk'
    by_cases h1 : o = a
    · exact Or.inr h1
    · left
      by_contra h2
      have h3 : o + 1 = a := by
        have : openningSymbol.length = 2 := rfl
        omega
      subst h3
      exact not_openning_twice ho (lastOccurrence_occurs ha)
  rw [h1, h2]

/-! ## The states the loop goes through -/

theorem loopBody_some {st1 st2 : State} (h : loopBody [] st1 = some st2) :
    ∃ r rs, st1.random = r :: rs ∧ st2.random = rs := by
  obtain ⟨s, t, random⟩ := st1
  cases random with
  | nil => simp [loopBody, generateKey] at h
  | cons r rs =>
    simp only [loopBody, generateKey_empty, Option.some.injEq] at h
    exact ⟨r, rs, rfl, by rw [← h]⟩

theorem Reaches.random_mem {st st1 : State} (h : Reaches st st1) :
    ∀ r ∈ st1.random, r ∈ st.random := by
  induction h with
  | start => exact fun r hr => hr
  | pass _ _ hbody ih =>
    intro r hr
    obtain ⟨r0, rs, h1, h2⟩ := loopBody_some hbody
    apply ih
    rw [h1]
    rw [h2] at hr
    exact List.mem_cons_of_mem _ hr

theorem Reaches.trans {st st1 st2 : State} (h1 : Reaches st st1) (h2 : Reaches st1 st2) :
    Reaches st st2 := by
  induction h2 with
  | start => exact h1
  | pass _ hopen hbody ih => exact Reaches.pass ih hopen hbody

theorem ordered_of_lastIndexOf {s : JSString} {a : Nat}
    (ha : lastOccurrence openningSymbol s = some a)
    (h : lastIndexOf s openningSymbol < lastIndexOf s closingSymbol) : a < endIndexOf s := by
  rw [lastIndexOf_of_some ha] at h
  cases hc : lastOccurrence closingSymbol s with
  | none =>
    rw [lastIndexOf_of_none hc] at h
    omega
  | some i =>
    rw [lastIndexOf_of_some hc] at h
    rw [endIndexOf_of_some hc]
    omega

theorem whileLoop_ordered (n : Nat) :
    ∀ (st : State), occurrences openningSymbol st.string = n →
      (∀ r ∈ st.random, isRendering r) → n ≤ st.random.length →
      (∀ st1, Reaches st st1 → lastIndexOf st1.string openningSymbol ≥ 0 →
        lastIndexOf st1.string openningSymbol < lastIndexOf st1.string closingSymbol) →
      ∃ st', (∀ fuel, n < fuel → whileLoop [] fuel st = some st') ∧
        (∀ fuel, fuel ≤ n → whileLoop [] fuel st = none) ∧
        st'.random = st.random.drop n ∧ occurrences openningSymbol st'.string = 0 := by
  induction n with
  | zero =>
    intro st hn _ _ _
    have hnone : lastOccurrence openningSymbol st.string = none := by
      cases h : lastOccurrence openningSymbol st.string with
      | none => rfl
      | some a =>
        have := occurrences_pos openningSymbol_ne_nil (lastOccurrence_occurs h)
        omega
    refine ⟨st, ?_, ?_, rfl, hn⟩
    · intro fuel hf
      obtain ⟨f, rfl⟩ : ∃ f, fuel = f + 1 := ⟨fuel - 1, by omega⟩
      exact whileLoop_done _ _ _ hnone
    · intro fuel hf
      have : fuel = 0 := by omega
      subst this
      rfl
  | succ n ih =>
    intro st hn hr hsupply hord
    obtain ⟨s, t, random⟩ := st
    have hsome : ∃ a, lastOccurrence openningSymbol s = some a := by
      cases h : lastOccurrence openningSymbol s with
      | some a => exact ⟨a, rfl⟩
      | none =>
        have := occurrences_eq_zero openningSymbol_ne_nil
          (fun c => lastOccurrence_none openningSymbol_ne_nil h c)
        simp only at hn
        omega
    obtain ⟨a, ha⟩ := hsome
    obtain ⟨r, rs, rfl⟩ : ∃ r rs, random = r :: rs := by
      cases random with
      | nil => simp at hsupply
      | cons r rs => exact ⟨r, rs, rfl⟩
    have hopen : lastIndexOf s openningSymbol ≥ 0 := lastIndexOf_nonneg_iff.mpr ⟨a, ha⟩
    have hae : a < endIndexOf s := ordered_of_lastIndexOf ha (hord _ Reaches.start hopen)
    have hr1 := hr r (List.mem_cons_self _ _)
    have hcount := pass_count hr1 ha hae
    simp only at hn
    have hbody := loopBody_eq s t r rs a ha
    have hreach : Reaches ⟨s, t, r :: rs⟩
        ⟨s.take a ++ placeholder r ++ s.drop (endIndexOf s),
          t.set (placeholder r) (substring s a (endIndexOf s)), rs⟩ :=
      Reaches.pass Reaches.start hopen hbody
    obtain ⟨st', h1, h2, h3, h4⟩ := ih
      ⟨s.take a ++ placeholder r ++ s.drop (endIndexOf s),
        t.set (placeholder r) (substring s a (endIndexOf s)), rs⟩
      (by simp only; omega)
      (fun r' hr' => hr r' (List.mem_cons_of_mem _ hr'))
      (by simp only [List.length_cons] at hsupply; simp only; omega)
      (fun st1 hst1 => hord st1 (hreach.trans hst1))
    refine ⟨st', ?_, ?_, ?_, h4⟩
    · intro fuel hf
      obtain ⟨f, rfl⟩ : ∃ f, fuel = f + 1 := ⟨fuel - 1, by omega⟩
      rw [whileLoop_step _ _ _ _ _ _ ha]
      exact h1 f (by omega)
    · intro fuel hf
      cases fuel with
      | zero => rfl
      | succ f =>
        rw [whileLoop_step _ _ _ _ _ _ ha]
        exact h2 f (by omega)
    · rw [h3]
      rfl

/-! ## The claim on the end of the loop -/

/-- C15: let the last closing marker start after the last opening marker at each pass of
the loop, that is in every state the loop goes through whose text has an opening marker
(the random values being number renderings, one at least for each opening marker). Then
each pass takes exactly one occurrence of `{%` out of the text, the placeholder bringing in
none; the loop ends after as many passes as the text has opening markers, no sooner and no
later, and the text returned has no opening marker. -/
theorem loop_ends_after_one_pass_per_opening (st : State)
    (hr : ∀ r ∈ st.random, isRendering r)
    (hsupply : occurrences openningSymbol st.string ≤ st.random.length)
    (hord : ∀ st1, Reaches st st1 → lastIndexOf st1.string openningSymbol ≥ 0 →
      lastIndexOf st1.string openningSymbol < lastIndexOf st1.string closingSymbol) :
    (∀ st1 st2, Reaches st st1 → lastIndexOf st1.string openningSymbol ≥ 0 →
      loopBody [] st1 = some st2 →
      occurrences openningSymbol st2.string + 1 = occurrences openningSymbol st1.string) ∧
    (∀ fuel, fuel ≤ occurrences openningSymbol st.string →
      replaceIndentationWithFragmentKey fuel st = none) ∧
    ∃ st', (∀ fuel, occurrences openningSymbol st.string < fuel →
        replaceIndentationWithFragmentKey fuel st = some st') ∧
      st'.random = st.random.drop (occurrences openningSymbol st.string) ∧
      occurrences openningSymbol st'.string = 0 ∧ ¬ openningSymbol <:+: st'.string := by
  refine ⟨?_, ?_⟩
  · intro st1 st2 hreach hopen hbody
    obtain ⟨a, ha⟩ := lastIndexOf_nonneg_iff.mp hopen
    have hae := ordered_of_lastIndexOf ha (hord st1 hreach hopen)
    obtain ⟨r, rs, h1, _⟩ := loopBody_some hbody
    obtain ⟨s, t, random⟩ := st1
    simp only at h1 ha hae
    subst h1
    rw [loopBody_eq s t r rs a ha] at hbody
    simp only [Option.some.injEq] at hbody
    rw [← hbody]
    exact pass_count (hr r (hreach.random_mem r (List.mem_cons_self _ _))) ha hae
  · obtain ⟨st', h1, h2, h3, h4⟩ :=
      whileLoop_ordered (occurrences openningSymbol st.string) st rfl hr hsupply hord
    refine ⟨h2, st', h1, h3, h4, ?_⟩
    intro hin
    obtain ⟨c, hc⟩ := infix_iff_occurs.mp hin
    have := occurrences_pos openningSymbol_ne_nil hc
    omega

/-- C15 at the text `A{%1%}B{%2%}C` with the random values 0.0078125 and 0.0234375: two
opening markers, two passes. -/
theorem loop_ends_after_one_pass_per_opening_witness :
    (∀ fuel, fuel ≤ occurrences openningSymbol (str "A\x7b%1%\x7dB\x7b%2%\x7dC") →
      replaceIndentationWithFragmentKey fuel
        ⟨str "A\x7b%1%\x7dB\x7b%2%\x7dC", [], [str "0.0078125", str "0.0234375"]⟩ = none) ∧
    ∃ st', (∀ fuel, occurrences openningSymbol (str "A\x7b%1%\x7dB\x7b%2%\x7dC") < fuel →
        replaceIndentationWithFragmentKey fuel
          ⟨str "A\x7b%1%\x7dB\x7b%2%\x7dC", [], [str "0.0078125", str "0.0234375"]⟩ = some st') ∧
      st'.random = [str "0.0078125", str "0.0234375"].drop
        (occurrences openningSymbol (str "A\x7b%1%\x7dB\x7b%2%\x7dC")) ∧
      occurrences openningSymbol st'.string = 0 ∧ ¬ openningSymbol <:+: st'.string :=
  (loop_ends_after_one_pass_per_opening
    ⟨str "A\x7b%1%\x7dB\x7b%2%\x7dC", [], [str "0.0078125", str "0.0234375"]⟩
    (by decide) (by decide)
    (by
      have key : ∀ st1, Reaches
          ⟨str "A\x7b%1%\x7dB\x7b%2%\x7dC", [], [str "0.0078125", str "0.0234375"]⟩ st1 →
          st1 = ⟨str "A\x7b%1%\x7dB\x7b%2%\x7dC", [], [str "0.0078125", str "0.0234375"]⟩ ∨
          st1 = ⟨str "A\x7b%1%\x7dBFRAGMENT0078125C",
            [(str "FRAGMENT0078125", str "\x7b%2%\x7d")], [str "0.0234375"]⟩ ∨
          st1 = ⟨str "AFRAGMENT0234375BFRAGMENT0078125C",
            [(str "FRAGMENT0078125", str "\x7b%2%\x7d"),
              (str "FRAGMENT0234375", str "\x7b%1%\x7d")], []⟩ := by
        intro st1 h
        induction h with
        | start => exact Or.inl rfl
        | pass _ hopen hbody ih =>
          rcases ih with h | h | h
          · subst h
            right; left
            have e : loopBody [] ⟨str "A\x7b%1%\x7dB\x7b%2%\x7dC", [],
                [str "0.0078125", str "0.0234375"]⟩
                = some ⟨str "A\x7b%1%\x7dBFRAGMENT0078125C",
                  [(str "FRAGMENT0078125", str "\x7b%2%\x7d")], [str "0.0234375"]⟩ := by
              decide
            rw [e] at hbody
            exact (Option.some.inj hbody).symm
          · subst h
            right; right
            have e : loopBody [] ⟨str "A\x7b%1%\x7dBFRAGMENT0078125C",
                [(str "FRAGMENT0078125", str "\x7b%2%\x7d")], [str "0.0234375"]⟩
                = some ⟨str "AFRAGMENT0234375BFRAGMENT0078125C",
                  [(str "FRAGMENT0078125", str "\x7b%2%\x7d"),
                    (str "FRAGMENT0234375", str "\x7b%1%\x7d")], []⟩ := by
              decide
            rw [e] at hbody
            exact (Option.some.inj hbody).symm
          · subst h
            exact absurd hopen (by decide)
      intro st1 hreach hopen
      rcases key st1 hreach with h | h | h
      · subst h; decide
      · subst h; decide
      · subst h; exact absurd hopen (by decide))).2

/-! ## Restoring a token at its first occurrence -/

theorem getSubstitution_of_no_dollar (matched before after : JSString) :
    ∀ (n : Nat) (v : JSString), v.length ≤ n → '$' ∉ v →
      getSubstitution matched before after v = v := by
  intro n
  induction n with
  | zero =>
    intro v hv _
    have : v = [] := List.length_eq_zero.mp (by omega)
    subst this
    rfl
  | succ n ih =>
    intro v hv hd
    match v with
    | [] => rfl
    | [c] => rfl
    | c :: d :: rest =>
      have hc : c ≠ '$' := fun h => hd (h ▸ List.mem_cons_self _ _)
      have hrest : '$' ∉ d :: rest := fun h => hd (List.mem_cons_of_mem _ h)
      simp only [getSubstitution, if_neg hc]
      rw [ih (d :: rest) (by simp only [List.length_cons] at hv ⊢; omega) hrest]

theorem splitFirst_of_occurs_first {pat : JSString} :
    ∀ {s : JSString}, pat <+: s → splitFirst pat s = some ([], s.drop pat.length) := by
  intro s h
  cases s with
  | nil =>
    have : pat = [] := List.prefix_nil.mp h
    subst this
    rfl
  | cons c s =>
    simp only [splitFirst, List.isPrefixOf_iff_prefix.mpr h, if_true]

theorem splitFirst_eq (pat Y : JSString) :
    ∀ (X : JSString), (∀ c, pat <+: (X ++ pat ++ Y).drop c → X.length ≤ c) →
      splitFirst pat (X ++ pat ++ Y) = some (X, Y) := by
  intro X
  induction X with
  | nil =>
    intro _
    rw [List.nil_append, splitFirst_of_occurs_first (List.prefix_append pat Y), List.drop_left]
  | cons x X ih =>
    intro h
    have h0 : ¬ pat <+: x :: (X ++ pat ++ Y) := by
      intro h0
      have := h 0 h0
      simp only [List.length_cons] at this
      omega
    have hs : ∀ c, pat <+: (X ++ pat ++ Y).drop c → X.length ≤ c := by
      intro c hc
      have := h (c + 1) hc
      simp only [List.length_cons] at this
      omega
    show splitFirst pat (x :: (X ++ pat ++ Y)) = some (x :: X, Y)
    simp only [splitFirst]
    rw [if_neg (fun hp => h0 (List.isPrefixOf_iff_prefix.mp hp)), ih hs]

theorem replace_at_first (pat X Y v : JSString)
    (h : ∀ c, pat <+: (X ++ pat ++ Y).drop c → X.length ≤ c) (hv : '$' ∉ v) :
    replace (X ++ pat ++ Y) pat v = X ++ v ++ Y := by
  unfold replace
  rw [splitFirst_eq pat Y X h]
  simp only
  rw [getSubstitution_of_no_dollar _ _ _ v.length v (le_refl _) hv]

theorem replacedOf_last_append (x y : JSString) :
    ∀ (ps : List (JSString × JSString)) (ks : List JSString),
      replacedOf ps ks (x ++ y) = replacedOf ps ks x ++ y := by
  intro ps
  induction ps with
  | nil => intro ks; simp [replacedOf]
  | cons p ps ih =>
    intro ks
    cases ks with
    | nil => simp [replacedOf]
    | cons k ks => simp only [replacedOf, ih ks, List.append_assoc]

/-- In `T0 P1 T1 ... Pm t tok tail` the token `tok` does not occur before the place shown,
when the texts have no `FRAGMENT` in them and the key of `tok` is of the length of the keys
of the `Pi` and differs from them. -/
theorem first_occurrence_of_token {len : Nat} {tok t tail : JSString} (htok : IsToken len tok)
    (ht : ¬ fragmentKey <:+: t) :
    ∀ (ps : List (JSString × JSString)) (ks : List JSString),
      (∀ p ∈ ps, ¬ fragmentKey <:+: p.1) →
      (∀ k ∈ ks, IsToken len (fragmentKey ++ k) ∧ fragmentKey ++ k ≠ tok) →
      ∀ c, tok <+: (replacedOf ps ks (t ++ tok ++ tail)).drop c →
        (replacedOf ps ks t).length ≤ c := by
  have htok_ne : tok ≠ [] := by
    intro h
    have := htok.length
    rw [h] at this
    simp only [List.length_nil] at this
    omega
  have hunit : ∀ j, 1 ≤ j → tok[j]? ≠ some 'F' := by
    obtain ⟨k, rfl, _, hk⟩ := htok
    exact fun j hj => token_unit hk hj
  have h0 : tok[0]? = some 'F' := by
    obtain ⟨k, rfl, _, _⟩ := htok
    rfl
  have base : ∀ c, tok <+: (t ++ tok ++ tail).drop c → t.length ≤ c := by
    intro c hc
    rcases occurs_in_replaced htok_ne htok_ne hc with h | h | h | h
    · exact absurd (infix_iff_occurs.mpr ⟨c, htok.fragmentKey_occurs h.2⟩) ht
    · exfalso
      obtain ⟨h1, h2, h3⟩ := h
      rw [h0] at h3
      exact hunit _ (by omega) h3
    · exact h.1
    · omega
  intro ps
  induction ps with
  | nil =>
    intro ks _ _ c hc
    simp only [replacedOf] at hc ⊢
    exact base c hc
  | cons p ps ih =>
    intro ks hps hks c hc
    cases ks with
    | nil =>
      simp only [replacedOf] at hc ⊢
      exact base c hc
    | cons k ks =>
      simp only [replacedOf] at hc ⊢
      obtain ⟨hktok, hkne⟩ := hks k (List.mem_cons_self _ _)
      have hP_ne : fragmentKey ++ k ≠ [] := by simp [fragmentKey]
      have ih' := ih ks (fun q hq => hps q (List.mem_cons_of_mem _ hq))
        (fun k' hk' => hks k' (List.mem_cons_of_mem _ hk'))
      simp only [List.length_append] at ih' ⊢
      rcases occurs_in_replaced hP_ne htok_ne hc with h | h | h | h
      · exact absurd (infix_iff_occurs.mpr ⟨c, htok.fragmentKey_occurs h.2⟩)
          (hps p (List.mem_cons_self _ _))
      · exfalso
        obtain ⟨h1, h2, h3⟩ := h
        have hP0 : (fragmentKey ++ k)[0]? = some 'F' := rfl
        rw [hP0] at h3
        exact hunit _ (by omega) h3
      · exfalso
        obtain ⟨h1, h2, _, h3⟩ := h
        rw [h0] at h3
        have hc0 : c = p.1.length := by
          by_contra hne
          obtain ⟨k', hk', _, hku⟩ := hktok
          have hkk : k' = k := List.append_cancel_left hk'.symm
          subst hkk
          exact token_unit hku (by omega : 1 ≤ c - p.1.length) h3.symm
        subst hc0
        have hmid := occurs_middle p.1 (fragmentKey ++ k)
          (replacedOf ps ks (t ++ tok ++ tail))
        exact hkne (prefix_eq_of_length hmid hc (by rw [hktok.length, htok.length]))
      · obtain ⟨h1, h2⟩ := h
        have := ih' _ h2
        simp only [List.length_append] at h1 this
        omega

theorem restore_replacedOf {len : Nat} (ps : List (JSString × JSString)) :
    ∀ (ks : List JSString) (tail : JSString), ps.length = ks.length →
      (∀ p ∈ ps, ¬ fragmentKey <:+: p.1) → (∀ p ∈ ps, '$' ∉ fragmentOf p.2) →
      (∀ k ∈ ks, IsToken len (fragmentKey ++ k)) → ks.Nodup →
      replaceOriginalFragment
          (List.zip (ks.reverse.map (fun k => fragmentKey ++ k))
            (ps.reverse.map (fun p => fragmentOf p.2)))
          (replacedOf ps ks tail)
        = textOf ps tail := by
  induction ps using List.reverseRecOn with
  | nil =>
    intro ks tail _ _ _ _ _
    simp [replaceOriginalFragment, replacedOf, textOf]
  | append_singleton ps p ih =>
    intro ks tail hlen hfree hdollar htok hnd
    obtain ⟨t, b⟩ := p
    obtain ⟨ks', k, rfl⟩ : ∃ ks' k, ks = ks' ++ [k] := by
      rcases List.eq_nil_or_concat ks with h | ⟨ks', k, h⟩
      · subst h
        simp at hlen
      · exact ⟨ks', k, by rw [h, List.concat_eq_append]⟩
    simp only [List.length_append, List.length_cons, List.length_nil,
      Nat.add_right_cancel_iff] at hlen
    have hnd' : ks'.Nodup ∧ k ∉ ks' := by
      rw [List.nodup_append] at hnd
      refine ⟨hnd.1, fun hk => ?_⟩
      exact hnd.2.2 hk (List.mem_singleton_self k)
    have hktok : IsToken len (fragmentKey ++ k) := htok k (by simp)
    have hfirst : ∀ c, (fragmentKey ++ k) <+:
        (replacedOf ps ks' t ++ (fragmentKey ++ k) ++ tail).drop c →
        (replacedOf ps ks' t).length ≤ c := by
      intro c hc
      have hc' : (fragmentKey ++ k) <+:
          (replacedOf ps ks' (t ++ (fragmentKey ++ k) ++ tail)).drop c := by
        rw [replacedOf_last_append, replacedOf_last_append]
        exact hc
      refine first_occurrence_of_token hktok (hfree (t, b) (by simp)) ps ks'
        (fun q hq => hfree q (by simp [hq])) ?_ c hc'
      intro k' hk'
      refine ⟨htok k' (by simp [hk']), fun heq => ?_⟩
      have : k' = k := List.append_cancel_left heq
      exact hnd'.2 (this ▸ hk')
    have htable : List.zip ((ks' ++ [k]).reverse.map (fun k => fragmentKey ++ k))
        ((ps ++ [(t, b)]).reverse.map (fun p => fragmentOf p.2))
        = (fragmentKey ++ k, fragmentOf b) ::
          List.zip (ks'.reverse.map (fun k => fragmentKey ++ k))
            (ps.reverse.map (fun p => fragmentOf p.2)) := by
      simp
    rw [htable, replaceOriginalFragment_cons, replacedOf_append _ _ _ _ _ hlen,
      replacedOf_last_append, replacedOf_last_append,
      replace_at_first _ _ _ _ hfirst (hdollar (t, b) (by simp)),
      ← replacedOf_last_append, ← replacedOf_last_append,
      ih ks' _ hlen (fun q hq => hfree q (by simp [hq])) (fun q hq => hdollar q (by simp [hq]))
        (fun k' hk' => htok k' (by simp [hk'])) hnd'.1,
      textOf_append]
    simp [textOf]

/-! ## The table built from an empty one -/

theorem Table.set_of_not_mem (t : Table) (k v : JSString) (h : k ∉ t.map Prod.fst) :
    t.set k v = t ++ [(k, v)] := by
  induction t with
  | nil => rfl
  | cons e t ih =>
    obtain ⟨k0, v0⟩ := e
    simp only [List.map_cons, List.mem_cons, not_or] at h
    have hne : ¬ k0 = k := fun e => h.1 e.symm
    simp only [Table.set, if_neg hne, ih h.2, List.cons_append]

theorem foldl_set_of_nodup (recs : List (JSString × JSString)) :
    ∀ (t : Table), (t.map Prod.fst ++ recs.map Prod.fst).Nodup →
      recs.foldl (fun t e => t.set e.1 e.2) t = t ++ recs := by
  induction recs with
  | nil => intro t _; simp
  | cons e recs ih =>
    intro t h
    have hnot : e.1 ∉ t.map Prod.fst := by
      intro hin
      rw [List.nodup_append] at h
      exact h.2.2 hin (by simp)
    rw [List.foldl_cons, Table.set_of_not_mem t e.1 e.2 hnot, ih]
    · simp
    · simpa [List.map_append, List.append_assoc] using h

/-! ## The parts of a well-paired text -/

theorem text_infix_textOf {ps : List (JSString × JSString)} {p : JSString × JSString}
    (last : JSString) (h : p ∈ ps) :
    p.1 <:+: textOf ps last ∧ fragmentOf p.2 <:+: textOf ps last := by
  induction ps with
  | nil => exact absurd h (List.not_mem_nil p)
  | cons q ps ih =>
    simp only [textOf]
    rcases List.mem_cons.mp h with h | h
    · subst h
      exact ⟨⟨[], fragmentOf p.2 ++ textOf ps last, by simp⟩,
        ⟨p.1, textOf ps last, by simp⟩⟩
    · obtain ⟨h1, h2⟩ := ih h
      exact ⟨h1.trans ⟨q.1 ++ fragmentOf q.2, [], by simp⟩,
        h2.trans ⟨q.1 ++ fragmentOf q.2, [], by simp⟩⟩

/-! ## The claim on the round trip the code does make -/

/-- C18: let `T = T0 F1 T1 ... Fn Tn` be a text in which `{%` and `%}` occur only as the
delimiters of the fragments `Fi`, with no `$` and no occurrence of `FRAGMENT` in it, and let
the keys cut from the random values be pairwise distinct and all of one length. Then
`replaceIndentationWithFragmentKey` returns on `T`, started from an empty table, and
`replaceOriginalFragment` applied to the text returned, with the table built, returns
`T`. -/
theorem round_trip_of_plain_text (pieces : List (JSString × JSString)) (last : JSString)
    (random : List JSString) (fuel len : Nat)
    (hopen : ∀ c, openningSymbol <+: (textOf pieces last).drop c → c ∈ openDelimiters pieces 0)
    (hclose : ∀ c, closingSymbol <+: (textOf pieces last).drop c → c ∈ closeDelimiters pieces 0)
    (hdollar : '$' ∉ textOf pieces last) (hfree : ¬ fragmentKey <:+: textOf pieces last)
    (hr : ∀ r ∈ random, isRendering r) (hlen : ∀ r ∈ random, (keyOf r).length = len)
    (hdistinct : (random.map keyOf).Nodup) (hsupply : pieces.length ≤ random.length)
    (hfuel : pieces.length < fuel) :
    ∃ st, replaceIndentationWithFragmentKey fuel ⟨textOf pieces last, [], random⟩ = some st ∧
      replaceOriginalFragment st.fragmentArray st.string = textOf pieces last := by
  have hrun := whileLoop_wellPaired pieces last [] random fuel hopen hclose hr hsupply hfuel
  refine ⟨_, hrun, ?_⟩
  have hsub : ((random.take pieces.length).map keyOf).Nodup :=
    hdistinct.sublist ((List.take_sublist _ _).map keyOf)
  have hkeys : ((recordsOf pieces random).map Prod.fst).Nodup := by
    rw [recordsOf_keys pieces random hsupply]
    have := hsub.map (List.append_right_injective fragmentKey)
    rwa [List.map_map] at this
  have htable : (recordsOf pieces random).foldl (fun t e => Table.set t e.1 e.2) ([] : Table)
      = recordsOf pieces random := by
    rw [foldl_set_of_nodup _ [] (by simpa using hkeys)]
    rfl
  have hrec : recordsOf pieces random
      = List.zip ((((random.take pieces.length).map keyOf).reverse).reverse.map
          (fun k => fragmentKey ++ k)) (pieces.reverse.map (fun p => fragmentOf p.2)) := by
    rw [List.reverse_reverse, List.map_map]
    rfl
  show replaceOriginalFragment
      ((recordsOf pieces random).foldl (fun t e => Table.set t e.1 e.2) ([] : Table))
      (replacedOf pieces ((random.take pieces.length).map keyOf).reverse last)
    = textOf pieces last
  rw [htable, hrec]
  apply @restore_replacedOf len pieces
  · simp only [List.length_reverse, List.length_map, List.length_take]
    omega
  · intro p hp hin
    exact hfree (hin.trans (text_infix_textOf last hp).1)
  · intro p hp hin
    exact hdollar ((text_infix_textOf last hp).2.subset hin)
  · intro k hk
    rw [List.mem_reverse, List.mem_map] at hk
    obtain ⟨r, hrm, rfl⟩ := hk
    have hrr := List.mem_of_mem_take hrm
    exact ⟨keyOf r, rfl, hlen r hrr, fun u hu => hr r hrr u (mem_keyOf hu)⟩
  · exact List.nodup_reverse.mpr hsub

/-- C18 at the text `A{%1%}B{%2%}C` with the random values 0.0078125 and 0.0234375. -/
theorem round_trip_of_plain_text_witness :
    ∃ st, replaceIndentationWithFragmentKey 3
        ⟨textOf [(str "A", str "1"), (str "B", str "2")] (str "C"), [],
          [str "0.0078125", str "0.0234375"]⟩ = some st ∧
      replaceOriginalFragment st.fragmentArray st.string
        = textOf [(str "A", str "1"), (str "B", str "2")] (str "C") :=
  round_trip_of_plain_text [(str "A", str "1"), (str "B", str "2")] (str "C")
    [str "0.0078125", str "0.0234375"] 3 7
    (by
      intro c hc
      have hb := occurs_bound openningSymbol_ne_nil hc
      have hc3 : c < 12 := by
        have : (textOf [(str "A", str "1"), (str "B", str "2")] (str "C")).length = 13 := by
          decide
        rw [this] at hb
        simp only [openningSymbol, List.length_cons, List.length_nil] at hb
        omega
      interval_cases c <;> revert hc <;> decide)
    (by
      intro c hc
      have hb := occurs_bound closingSymbol_ne_nil hc
      have hc3 : c < 12 := by
        have : (textOf [(str "A", str "1"), (str "B", str "2")] (str "C")).length = 13 := by
          decide
        rw [this] at hb
        simp only [closingSymbol, List.length_cons, List.length_nil] at hb
        omega
      interval_cases c <;> revert hc <;> decide)
    (by decide) (by decide) (by decide) (by decide) (by decide) (by decide) (by decide)

end FragmentIndentation
